import Mathlib

/-!
Shallow embedding of `src/sentry/digests/notifications.py`.

Python dictionaries are modelled as insertion-ordered association lists.
Django model objects (`Group`, `Rule`, `Project`) hash and compare by
primary key, so dictionary operations keyed by model objects compare keys
through their `id` field (see `lookupBy` / `updateBy`, parameterised by a
key projection).  External collaborators (the object store and the tsdb
counter service) are modelled as an abstract `FetchEnv` of bulk-lookup
functions.  Python exceptions raised by `attach_state` (the `assert`
statements and `KeyError` from `groups[id]`) are modelled with
`Except BuildError`.
-/

namespace Sentry

/-- Modelled from the spec: the entity status enum
(`GroupStatus` incl. UNRESOLVED / RESOLVED / IGNORED); the class itself
lives outside the digest module. -/
inductive GroupStatus
  | unresolved
  | resolved
  | ignored
deriving DecidableEq

structure Project where
  id : Nat
deriving DecidableEq

/-- Modelled from the spec: a `Group` ("Entity") carries an id, the id of its
owning project, a current status and two counters that are seeded during
state attachment.  `project` is the back-reference set by `attach_state`. -/
structure Group where
  id : Nat
  project_id : Nat
  status : GroupStatus
  project : Option Project
  event_count : Nat
  user_count : Nat
deriving DecidableEq

/-- Modelled from the spec: a matching `Rule` with its owning project id and
the back-reference set by `attach_state`. -/
structure MRule where
  id : Nat
  project_id : Nat
  project : Option Project
deriving DecidableEq

/-- Modelled from the spec: the event carried by a record.  It initially
holds only the foreign key `group_id` of its owning entity; `group` is the
back-reference attached during the rewrite stage. -/
structure Event where
  event_id : Nat
  group_id : Nat
  group : Option Group
deriving DecidableEq

/-- `Notification = namedtuple("Notification", "event rules")`.  Before the
rewrite stage `rules` holds rule ids (`ρ = Nat`), afterwards resolved
`MRule` objects. -/
structure Notification (ρ : Type) where
  event : Event
  rules : List ρ
deriving DecidableEq

/-- Modelled from the spec: `Record = {key, value, timestamp}`, the immutable
unit flowing through the pipeline (the class lives outside this module). -/
structure Record (ρ : Type) where
  key : Nat
  value : Notification ρ
  timestamp : Int
deriving DecidableEq

/-- Modelled from the spec: `Record.datetime` converts the stored timestamp
back to a point in time; §4.3 identifies it with the record's timestamp
(`start = records[last].timestamp`). -/
def Record.datetime {ρ : Type} (r : Record ρ) : Int :=
  r.timestamp

/-- Modelled from the spec: `Group.get_status()` reads the entity's current
status (the method lives outside this module). -/
def get_status (g : Group) : GroupStatus :=
  g.status

/-- The exceptions `attach_state` can raise: a failed `assert`
(ownership-invariant violation) or a `KeyError` from `groups[id]`. -/
inductive BuildError
  | assertionError (msg : String)
  | keyError (id : Nat)
deriving DecidableEq

/-! ### Ordered dictionaries as association lists

`lookupBy kf` / `updateBy kf` model Python `dict` operations where keys are
hashed and compared through the projection `kf` (for Django model objects,
the primary key; for plain integer keys, `kf = id`).  A fresh key is
inserted at the end, matching CPython's insertion order. -/

def lookupBy {κ ν : Type} (kf : κ → Nat) (k : κ) : List (κ × ν) → Option ν
  | [] => none
  | (k', v) :: rest => if kf k' = kf k then some v else lookupBy kf k rest

def updateBy {κ ν : Type} (kf : κ → Nat) (k : κ) (dflt : ν) (f : ν → ν) :
    List (κ × ν) → List (κ × ν)
  | [] => [(k, f dflt)]
  | (k', v) :: rest =>
    if kf k' = kf k then (k', f v) :: rest else (k', v) :: updateBy kf k dflt f rest

/-! ### External collaborators and state bundles -/

/-- The external bulk-lookup services used by `fetch_state`:
`Group.objects.in_bulk`, `Rule.objects.in_bulk`, `tsdb.get_sums` and
`tsdb.get_distinct_counts_totals`. -/
structure FetchEnv where
  groupsInBulk : List Nat → List (Nat × Group)
  rulesInBulk : List Nat → List (Nat × MRule)
  getSums : List Nat → Int → Int → List (Nat × Nat)
  getDistinctCountsTotals : List Nat → Int → Int → List (Nat × Nat)

/-- The dictionary returned by `fetch_state` (and accepted by
`build_digest(state=...)`): keys `project, groups, rules, event_counts,
user_counts`. -/
structure FetchedState where
  project : Project
  groups : List (Nat × Group)
  rules : List (Nat × MRule)
  event_counts : List (Nat × Nat)
  user_counts : List (Nat × Nat)

/-- The dictionary returned by `attach_state`: keys
`project, groups, rules`. -/
structure AttachedState where
  project : Project
  groups : List (Nat × Group)
  rules : List (Nat × MRule)

/-- `fetch_state(project, records)`.  Records arrive in reverse
chronological order, so the query interval is
`start = records[-1].datetime`, `end = records[0].datetime`
(`stop` stands for the Python variable `end`). -/
def fetch_state (env : FetchEnv) (project : Project) (records : List (Record Nat))
    (h : records ≠ []) : FetchedState :=
  let start := (records.getLast h).datetime
  let stop := (records.head h).datetime
  let groups := env.groupsInBulk (records.map (fun r => r.value.event.group_id))
  { project := project
    groups := groups
    rules := env.rulesInBulk (records.foldr (fun r acc => r.value.rules ++ acc) [])
    event_counts := env.getSums (groups.map Prod.fst) start stop
    user_counts := env.getDistinctCountsTotals (groups.map Prod.fst) start stop }

/-- The per-group mutation of `attach_state`'s first loop: attach the
project back-reference and zero both counters. -/
def seed_group (project : Project) (g : Group) : Group :=
  { g with project := some project, event_count := 0, user_count := 0 }

/-- The first loop of `attach_state`: assert that each group belongs to the
project, attach the project back-reference and zero both counters. -/
def attach_groups (project : Project) :
    List (Nat × Group) → Except BuildError (List (Nat × Group))
  | [] => .ok []
  | (i, g) :: rest =>
    if g.project_id = project.id then
      match attach_groups project rest with
      | .ok rest2 =>
        .ok ((i, { g with project := some project, event_count := 0, user_count := 0 }) :: rest2)
      | .error e => .error e
    else
      .error (.assertionError "Group must belong to Project")

/-- The second loop of `attach_state`: assert ownership of each rule and
attach the project back-reference. -/
def attach_rules (project : Project) :
    List (Nat × MRule) → Except BuildError (List (Nat × MRule))
  | [] => .ok []
  | (i, r) :: rest =>
    if r.project_id = project.id then
      match attach_rules project rest with
      | .ok rest2 => .ok ((i, { r with project := some project }) :: rest2)
      | .error e => .error e
    else
      .error (.assertionError "Rule must belong to Project")

/-- `groups[i] = f groups[i]` on an association list; `none` models the
`KeyError` raised when `i` is not a key. -/
def adjust_entry (i : Nat) (f : Group → Group) :
    List (Nat × Group) → Option (List (Nat × Group))
  | [] => none
  | (j, g) :: rest =>
    if j = i then some ((j, f g) :: rest)
    else (adjust_entry i f rest).map (fun rest2 => (j, g) :: rest2)

/-- The overlay loops of `attach_state`: write each supplied counter onto
the matching group, raising `KeyError` when the id has no matching group. -/
def overlay_counts (f : Group → Nat → Group) (groups : List (Nat × Group)) :
    List (Nat × Nat) → Except BuildError (List (Nat × Group))
  | [] => .ok groups
  | (i, c) :: rest =>
    match adjust_entry i (fun g => f g c) groups with
    | some groups2 => overlay_counts f groups2 rest
    | none => .error (.keyError i)

/-- `groups[id].event_count = event_count` in the first overlay loop. -/
def set_event_count (g : Group) (c : Nat) : Group :=
  { g with event_count := c }

/-- `groups[id].user_count = user_count` in the second overlay loop. -/
def set_user_count (g : Group) (c : Nat) : Group :=
  { g with user_count := c }

/-- `attach_state(project, groups, rules, event_counts, user_counts)`. -/
def attach_state (project : Project) (groups : List (Nat × Group))
    (rules : List (Nat × MRule)) (event_counts : List (Nat × Nat))
    (user_counts : List (Nat × Nat)) : Except BuildError AttachedState :=
  match attach_groups project groups with
  | .error e => .error e
  | .ok gs1 =>
    match attach_rules project rules with
    | .error e => .error e
    | .ok rs1 =>
      match overlay_counts set_event_count gs1 event_counts with
      | .error e => .error e
      | .ok gs2 =>
        match overlay_counts set_user_count gs2 user_counts with
        | .error e => .error e
        | .ok gs3 => .ok { project := project, groups := gs3, rules := rs1 }

/-! ### The record pipeline

The `Pipeline` class is a left-to-right composition of its registered
stages (`reduce(lambda x, op: op(x), self.operations, sequence)`); the
assembled pipeline of `build_digest` is embedded below as one named
definition per stage, applied in registration order. -/

/-- `rewrite_record(record, project=..., groups=..., rules=...)`: reattach
the group to the event (dropping the record — returning `None` — when the
group id does not resolve) and rebuild the rule list, silently omitting
rule ids that no longer resolve. -/
def rewrite_record (st : AttachedState) (record : Record Nat) : Option (Record MRule) :=
  let event := record.value.event
  match lookupBy id event.group_id st.groups with
  | none => none
  | some group =>
    some { key := record.key
           value := { event := { event with group := some group }
                      rules := record.value.rules.filterMap (fun i => lookupBy id i st.rules) }
           timestamp := record.timestamp }

/-- `check_group_state`: keep only records whose attached group currently
has status `UNRESOLVED`.  (After the rewrite stage the group is always
attached; on a detached event Python would raise, which no pipeline record
can trigger.) -/
def check_group_state (record : Record MRule) : Bool :=
  match record.value.event.group with
  | some g => get_status g = GroupStatus.unresolved
  | none => false

/-- The two-level digest structure: an ordered mapping
rule → ordered mapping group → list of records. -/
abbrev Digest := List (MRule × List (Group × List (Record MRule)))

/-- `groups[rule][group].append(record)` on the two-level `defaultdict`. -/
def appendLeaf (d : Digest) (rule : MRule) (group : Group) (record : Record MRule) : Digest :=
  updateBy MRule.id rule []
    (fun gs => updateBy Group.id group [] (fun leaf => leaf ++ [record]) gs) d

/-- `group_records(groups, record)`: add the record under each of its rules,
keyed by its attached group.  A record with no rules joins no group; a
record with a detached event cannot occur in the pipeline (see
`check_group_state`). -/
def group_records (d : Digest) (record : Record MRule) : Digest :=
  match record.value.event.group with
  | none => d
  | some group => record.value.rules.foldl (fun d2 rule => appendLeaf d2 rule group record) d

/-- Insert into a descending-sorted list: `a` goes before the first element
it compares greater-or-equal to.  With a total transitive `ge` this is the
unique stable sort, matching CPython's stable `sorted(..., reverse=True)`. -/
def insBy {α : Type} (ge : α → α → Bool) (a : α) : List α → List α
  | [] => [a]
  | b :: l => if ge a b then a :: b :: l else b :: insBy ge a l

/-- Stable insertion sort by a total transitive `ge` relation. -/
def sortBy {α : Type} (ge : α → α → Bool) : List α → List α
  | [] => []
  | a :: l => insBy ge a (sortBy ge l)

/-- The entity sort key `(group.event_count, group.user_count)`. -/
def group_sort_key (x : Group × List (Record MRule)) : Nat × Nat :=
  (x.1.event_count, x.1.user_count)

/-- Non-strict descending comparison of `(event_count, user_count)` keys:
`pairGE a b` holds when `a` is lexicographically at least `b`. -/
def pairGE (a b : Nat × Nat) : Bool :=
  decide (b.1 < a.1) || (decide (a.1 = b.1) && decide (b.2 ≤ a.2))

/-- `sort_group_contents`: inside every rule, sort the entity mapping
descending by `(event_count, user_count)`. -/
def sort_group_contents (rules : Digest) : Digest :=
  rules.map (fun kv =>
    (kv.1, sortBy (fun a b => pairGE (group_sort_key a) (group_sort_key b)) kv.2))

/-- `sort_rule_groups`: sort the outer rule mapping descending by the number
of entities mapped under each rule. -/
def sort_rule_groups (rules : Digest) : Digest :=
  sortBy (fun a b => decide (b.2.length ≤ a.2.length)) rules

/-- Stage 1 of the assembled pipeline:
`.map(functools.partial(rewrite_record, **state))`. -/
def rewritten (st : AttachedState) (records : List (Record Nat)) :
    List (Option (Record MRule)) :=
  records.map (rewrite_record st)

/-- Stage 2, `.filter(bool)`: drop the `None` results.  The surviving
elements are the records themselves, extracted with `filterMap id`. -/
def survivors (st : AttachedState) (records : List (Record Nat)) : List (Record MRule) :=
  ((rewritten st records).filter Option.isSome).filterMap id

/-- Stage 3: `.filter(check_group_state)`. -/
def alive (st : AttachedState) (records : List (Record Nat)) : List (Record MRule) :=
  (survivors st records).filter check_group_state

/-- Stage 4, `.reduce(group_records, lambda seq: defaultdict(...))`: the
seed factory ignores its argument and yields the empty two-level mapping. -/
def grouped (st : AttachedState) (records : List (Record Nat)) : Digest :=
  (alive st records).foldl group_records []

/-- Stages 5–6: `.apply(sort_group_contents).apply(sort_rule_groups)`;
the whole assembled pipeline applied to a record sequence. -/
def run_pipeline (st : AttachedState) (records : List (Record Nat)) : Digest :=
  sort_rule_groups (sort_group_contents (grouped st records))

/-- The in-place effect of the first pipeline run on the caller's records:
`rewrite_record` mutates `event.group` on every record whose group id
resolves (records in Python share their event objects with the pipeline's
output, so the attach persists across runs). -/
def attach_effect (st : AttachedState) (record : Record Nat) : Record Nat :=
  match lookupBy id record.value.event.group_id st.groups with
  | none => record
  | some group =>
    { record with
      value := { record.value with
                 event := { record.value.event with group := some group } } }

/-- The caller's record batch as it stands after one pipeline run. -/
def effect_records (st : AttachedState) (records : List (Record Nat)) : List (Record Nat) :=
  records.map (attach_effect st)

/-- The leaf list stored in a digest under the dictionary keys `(rule, group)`
(empty when either key is absent). -/
def leafOf (d : Digest) (rule : MRule) (group : Group) : List (Record MRule) :=
  (lookupBy Group.id group ((lookupBy MRule.id rule d).getD [])).getD []

/-- The occurrences a single record contributes to the leaf under
`(rule, group)`: one copy per occurrence of the rule in its rule list,
provided its attached group matches. -/
def contribution (r : Record MRule) (rule : MRule) (group : Group) :
    List (Record MRule) :=
  match r.value.event.group with
  | none => []
  | some g0 =>
    if g0.id = group.id then
      List.replicate (r.value.rules.countP (fun x => x.id == rule.id)) r
    else []

/-- Membership test for the leaf under `(rule, group)`: the record's attached
group matches and its rule list mentions the rule. -/
def leafPred (rule : MRule) (group : Group) (r : Record MRule) : Bool :=
  (match r.value.event.group with
   | some g0 => g0.id == group.id
   | none => false) && r.value.rules.any (fun x => x.id == rule.id)

/-- `a` is lexicographically strictly greater than `b` on
`(event_count, user_count)` pairs. -/
def pairGT (a b : Nat × Nat) : Prop :=
  b.1 < a.1 ∨ (b.1 = a.1 ∧ b.2 < a.2)

/-- Both key columns of a digest are duplicate-free (always true of the
digests the pipeline builds: Python dictionaries cannot repeat a key). -/
def DigestKeysOK (d : Digest) : Prop :=
  (d.map (fun p => p.1.id)).Nodup ∧ ∀ p ∈ d, (p.2.map (fun q => q.1.id)).Nodup

/-- `build_digest(project, records, state=None)`: `None` for an empty batch,
otherwise fetch (unless supplied), attach, and run the pipeline. -/
def build_digest (env : FetchEnv) (project : Project) (records : List (Record Nat))
    (state : Option FetchedState) : Except BuildError (Option Digest) :=
  if h : records = [] then .ok none
  else
    let s : FetchedState :=
      match state with
      | some s => s
      | none => fetch_state env project records h
    match attach_state s.project s.groups s.rules s.event_counts s.user_counts with
    | .error e => .error e
    | .ok st => .ok (some (run_pipeline st records))

/-! ### Key codec

Python strings are modelled as `List Char`.  `pySplitMax sep s m` is
`s.split(sep, m)`: at most `m` splits, the final element absorbing the
remainder.  Decimal printing and parsing model `str()` formatting and
`int()` conversion (`none` models the `ValueError`). -/

abbrev PyStr := List Char

/-- Split off everything before the first occurrence of `sep`; `none` when
`sep` does not occur. -/
def splitFirst (sep : Char) : PyStr → Option (PyStr × PyStr)
  | [] => none
  | c :: rest =>
    if c = sep then some ([], rest)
    else
      match splitFirst sep rest with
      | none => none
      | some (pre, post) => some (c :: pre, post)

/-- `s.split(sep, maxsplit)`. -/
def pySplitMax (sep : Char) (s : PyStr) : Nat → List PyStr
  | 0 => [s]
  | m + 1 =>
    match splitFirst sep s with
    | none => [s]
    | some (pre, post) => pre :: pySplitMax sep post m

/-- The decimal digits of `n`, most significant first — `str(n)` for a
non-negative integer. -/
def natToChars (n : Nat) : PyStr :=
  if n = 0 then ['0']
  else ((Nat.digits 10 n).reverse).map (fun d => Char.ofNat (48 + d))

/-- `str(i)` for a Python integer: a `-` sign followed by the decimal
digits of the absolute value. -/
def intToChars (i : Int) : PyStr :=
  if i < 0 then '-' :: natToChars i.natAbs else natToChars i.natAbs

/-- The numeric value of a decimal digit character, `none` otherwise. -/
def digitVal (c : Char) : Option Nat :=
  if 48 ≤ c.toNat ∧ c.toNat ≤ 57 then some (c.toNat - 48) else none

def parseNatAux : PyStr → Nat → Option Nat
  | [], acc => some acc
  | c :: rest, acc =>
    match digitVal c with
    | some d => parseNatAux rest (acc * 10 + d)
    | none => none

/-- `int(s)` for an unsigned decimal string (`none` models `ValueError`). -/
def parseNat (s : PyStr) : Option Nat :=
  match s with
  | [] => none
  | _ :: _ => parseNatAux s 0

/-- `int(s)` for a Python integer literal with an optional sign. -/
def parseInt (s : PyStr) : Option Int :=
  match s with
  | [] => none
  | c :: rest =>
    if c = '-' then
      match parseNat rest with
      | some n => some (-((n : Nat) : Int))
      | none => none
    else if c = '+' then
      match parseNat rest with
      | some n => some (((n : Nat) : Int))
      | none => none
    else
      match parseNat s with
      | some n => some (((n : Nat) : Int))
      | none => none

def TARGETED_MAIL_ACTION_SYMBOL : PyStr := "targeted_mail".data

/-- The mail adapter constructed by `split_key_for_targeted_action`. -/
inductive Adapter
  | mail
deriving DecidableEq

/-- `unsplit_key_for_targeted_action(project, target_type, target_id=None)`:
`"targeted_mail:p:{project.id}:{target_type}:{sanitised_target_id}"` with
`sanitised_target_id = -1` when `target_id` is `None`. -/
def unsplit_key_for_targeted_action (project : Project) (target_type : PyStr)
    (target_id : Option Int) : PyStr :=
  let sanitised_target_id : Int :=
    match target_id with
    | some t => t
    | none => -1
  TARGETED_MAIL_ACTION_SYMBOL ++ ":p:".data ++ natToChars project.id ++ ":".data ++
    target_type ++ ":".data ++ intToChars sanitised_target_id

/-- `split_key_for_targeted_action(key)`:
`_, _, project_id, target_type, target_identifier_str = key.split(":", 4)`,
then resolve the project by id through the external store (`lookupProject`
models `Project.objects.get(pk=...)`, `none` its `DoesNotExist`) and parse
the target identifier with `int(...)`.  `none` also models the unpacking
error when the key does not have five segments. -/
def split_key_for_targeted_action (lookupProject : Nat → Option Project) (key : PyStr) :
    Option (Adapter × Project × PyStr × Int) :=
  match pySplitMax ':' key 4 with
  | [_, _, project_id, target_type, target_identifier_str] =>
    match parseNat project_id, parseInt target_identifier_str with
    | some pid, some tid =>
      match lookupProject pid with
      | some proj => some (Adapter.mail, proj, target_type, tid)
      | none => none
    | _, _ => none
  | _ => none

/-! ### Concrete fixtures used to exercise the definitions -/

def wProject : Project := ⟨1⟩

def wGroup : Group := ⟨7, 1, GroupStatus.unresolved, none, 0, 0⟩

def wRule : MRule := ⟨10, 1, none⟩

def wState : FetchedState :=
  { project := wProject
    groups := [(7, wGroup)]
    rules := [(10, wRule)]
    event_counts := [(7, 3)]
    user_counts := [(7, 2)] }

def wRecord : Record Nat := ⟨100, ⟨⟨100, 7, none⟩, [10]⟩, 5⟩

def wEnv : FetchEnv :=
  ⟨fun _ => [], fun _ => [], fun _ _ _ => [], fun _ _ _ => []⟩

/-- `wGroup` as attached by `attach_state`: project back-reference set,
counters overlaid. -/
def wGroupA : Group := ⟨7, 1, GroupStatus.unresolved, some wProject, 3, 2⟩

/-- `wRule` as attached by `attach_state`. -/
def wRuleA : MRule := ⟨10, 1, some wProject⟩

def wAttached : AttachedState := ⟨wProject, [(7, wGroupA)], [(10, wRuleA)]⟩

/-- `wRecord` as rewritten by `rewrite_record` under `wAttached`. -/
def wRecordR : Record MRule := ⟨100, ⟨⟨100, 7, some wGroupA⟩, [wRuleA]⟩, 5⟩

/-- A record whose rule id list repeats the same rule. -/
def wRecDup : Record Nat := ⟨100, ⟨⟨100, 7, none⟩, [10, 10]⟩, 5⟩

/-- A group owned by a different project (`project_id = 2`). -/
def wBadGroup : Group := ⟨8, 2, GroupStatus.unresolved, none, 0, 0⟩

/-- `wGroup` as attached when no counter entries are supplied: both
counters stay zero. -/
def wGroupZ : Group := ⟨7, 1, GroupStatus.unresolved, some wProject, 0, 0⟩

def wAttachedZ : AttachedState := ⟨wProject, [(7, wGroupZ)], [(10, wRuleA)]⟩

/-- An older record (smaller timestamp) closing a two-record batch. -/
def wRec2 : Record Nat := ⟨101, ⟨⟨101, 7, none⟩, [10]⟩, 3⟩

/-- `wRecDup` as rewritten by `rewrite_record` under `wAttached`. -/
def wRecDupR : Record MRule := ⟨100, ⟨⟨100, 7, some wGroupA⟩, [wRuleA, wRuleA]⟩, 5⟩

/-! ## Lemmas about the stable sort -/

theorem mem_insBy {α : Type} (ge : α → α → Bool) (a x : α) (l : List α) :
    x ∈ insBy ge a l ↔ x = a ∨ x ∈ l := by
  induction l with
  | nil => simp [insBy]
  | cons b l ih =>
    by_cases h : ge a b
    · simp [insBy, h]
    · simp only [insBy, h, if_neg, Bool.false_eq_true, not_false_iff, List.mem_cons, ih]
      tauto

theorem insBy_perm {α : Type} (ge : α → α → Bool) (a : α) (l : List α) :
    List.Perm (insBy ge a l) (a :: l) := by
  induction l with
  | nil => simp [insBy]
  | cons b l ih =>
    by_cases h : ge a b
    · simp [insBy, h]
    · simp only [insBy, h, if_neg, Bool.false_eq_true, not_false_iff]
      exact (List.Perm.cons b ih).trans (List.Perm.swap a b l)

theorem sortBy_perm {α : Type} (ge : α → α → Bool) (l : List α) :
    List.Perm (sortBy ge l) l := by
  induction l with
  | nil => simp [sortBy]
  | cons a l ih => exact (insBy_perm ge a (sortBy ge l)).trans (List.Perm.cons a ih)

theorem mem_sortBy {α : Type} (ge : α → α → Bool) (x : α) (l : List α) :
    x ∈ sortBy ge l ↔ x ∈ l :=
  (sortBy_perm ge l).mem_iff

theorem pairwise_insBy {α : Type} {ge : α → α → Bool}
    (htot : ∀ x y, ge x y = true ∨ ge y x = true)
    (htr : ∀ x y z, ge x y = true → ge y z = true → ge x z = true)
    {a : α} {l : List α} (h : l.Pairwise (fun x y => ge x y = true)) :
    (insBy ge a l).Pairwise (fun x y => ge x y = true) := by
  induction l with
  | nil => simp [insBy]
  | cons b l ih =>
    rcases List.pairwise_cons.mp h with ⟨hb, hl⟩
    by_cases hab : ge a b
    · simp only [insBy, hab, if_pos]
      refine List.pairwise_cons.mpr ⟨?_, h⟩
      intro y hy
      rcases List.mem_cons.mp hy with rfl | hy
      · exact hab
      · exact htr a b y hab (hb y hy)
    · simp only [insBy, hab, Bool.false_eq_true, if_neg, not_false_iff]
      refine List.pairwise_cons.mpr ⟨?_, ih hl⟩
      intro y hy
      rcases (mem_insBy ge a y l).mp hy with h' | hy
      · subst h'
        rcases htot y b with h1 | h1
        · exact absurd h1 hab
        · exact h1
      · exact hb y hy

theorem sortBy_pairwise {α : Type} {ge : α → α → Bool}
    (htot : ∀ x y, ge x y = true ∨ ge y x = true)
    (htr : ∀ x y z, ge x y = true → ge y z = true → ge x z = true)
    (l : List α) : (sortBy ge l).Pairwise (fun x y => ge x y = true) := by
  induction l with
  | nil => simp [sortBy]
  | cons a l ih => exact pairwise_insBy htot htr ih

/-! ## Lemmas about dictionary lookups and updates -/

theorem lookupBy_nil {κ ν : Type} (kf : κ → Nat) (k : κ) :
    lookupBy kf k ([] : List (κ × ν)) = none := rfl

theorem lookupBy_cons {κ ν : Type} (kf : κ → Nat) (k a : κ) (v : ν)
    (rest : List (κ × ν)) :
    lookupBy kf k ((a, v) :: rest) =
      if kf a = kf k then some v else lookupBy kf k rest := rfl

theorem updateBy_nil {κ ν : Type} (kf : κ → Nat) (k : κ) (dflt : ν) (f : ν → ν) :
    updateBy kf k dflt f [] = [(k, f dflt)] := rfl

theorem updateBy_cons {κ ν : Type} (kf : κ → Nat) (k a : κ) (dflt v : ν)
    (f : ν → ν) (rest : List (κ × ν)) :
    updateBy kf k dflt f ((a, v) :: rest) =
      if kf a = kf k then (a, f v) :: rest
      else (a, v) :: updateBy kf k dflt f rest := rfl

theorem lookupBy_congr {κ ν : Type} (kf : κ → Nat) {k1 k2 : κ} (l : List (κ × ν))
    (h : kf k1 = kf k2) : lookupBy kf k1 l = lookupBy kf k2 l := by
  induction l with
  | nil => rfl
  | cons p rest ih => simp [lookupBy, h, ih]

theorem lookupBy_updateBy {κ ν : Type} (kf : κ → Nat) (k k' : κ) (dflt : ν)
    (f : ν → ν) (l : List (κ × ν)) :
    lookupBy kf k (updateBy kf k' dflt f l) =
      if kf k' = kf k then some (f ((lookupBy kf k' l).getD dflt))
      else lookupBy kf k l := by
  induction l with
  | nil =>
    by_cases h : kf k' = kf k
    · rw [updateBy_nil, lookupBy_cons, if_pos h, if_pos h, lookupBy_nil]
      rfl
    · rw [updateBy_nil, lookupBy_cons, if_neg h, if_neg h, lookupBy_nil]
  | cons p rest ih =>
    obtain ⟨a, v⟩ := p
    by_cases h1 : kf a = kf k'
    · by_cases h2 : kf k' = kf k
      · have h3 : kf a = kf k := h1.trans h2
        rw [updateBy_cons, if_pos h1, lookupBy_cons, if_pos h3, if_pos h2,
          lookupBy_cons, if_pos h1]
        rfl
      · have h3 : ¬ kf a = kf k := fun hc => h2 (h1.symm.trans hc)
        rw [updateBy_cons, if_pos h1, lookupBy_cons, if_neg h3, if_neg h2,
          lookupBy_cons, if_neg h3]
    · by_cases h3 : kf a = kf k
      · have h2 : ¬ kf k' = kf k := fun hc => h1 (h3.trans hc.symm)
        rw [updateBy_cons, if_neg h1, lookupBy_cons, if_pos h3, if_neg h2,
          lookupBy_cons, if_pos h3]
      · have e1 : lookupBy kf k' ((a, v) :: rest) = lookupBy kf k' rest := by
          rw [lookupBy_cons, if_neg h1]
        have e2 : lookupBy kf k ((a, v) :: rest) = lookupBy kf k rest := by
          rw [lookupBy_cons, if_neg h3]
        rw [updateBy_cons, if_neg h1, lookupBy_cons, if_neg h3, ih, e1, e2]

theorem mem_keys_updateBy {κ ν : Type} (kf : κ → Nat) (k : κ) (dflt : ν)
    (f : ν → ν) (l : List (κ × ν)) {x : Nat}
    (hx : x ∈ (updateBy kf k dflt f l).map (fun p => kf p.1)) :
    x ∈ l.map (fun p => kf p.1) ∨ x = kf k := by
  induction l with
  | nil =>
    rw [updateBy_nil] at hx
    simp only [List.map_cons, List.map_nil, List.mem_singleton] at hx
    exact Or.inr hx
  | cons p rest ih =>
    obtain ⟨a, v⟩ := p
    by_cases h1 : kf a = kf k
    · rw [updateBy_cons, if_pos h1] at hx
      simp only [List.map_cons, List.mem_cons] at hx ⊢
      exact Or.inl hx
    · rw [updateBy_cons, if_neg h1] at hx
      simp only [List.map_cons, List.mem_cons] at hx ⊢
      rcases hx with hx | hx
      · exact Or.inl (Or.inl hx)
      · rcases ih hx with h | h
        · exact Or.inl (Or.inr h)
        · exact Or.inr h

theorem nodupKeys_updateBy {κ ν : Type} (kf : κ → Nat) (k : κ) (dflt : ν)
    (f : ν → ν) (l : List (κ × ν)) (h : (l.map (fun p => kf p.1)).Nodup) :
    ((updateBy kf k dflt f l).map (fun p => kf p.1)).Nodup := by
  induction l with
  | nil =>
    rw [updateBy_nil]
    simp
  | cons p rest ih =>
    obtain ⟨a, v⟩ := p
    simp only [List.map_cons, List.nodup_cons] at h
    by_cases h1 : kf a = kf k
    · rw [updateBy_cons, if_pos h1]
      simp only [List.map_cons, List.nodup_cons]
      exact ⟨h.1, h.2⟩
    · rw [updateBy_cons, if_neg h1]
      simp only [List.map_cons, List.nodup_cons]
      refine ⟨?_, ih h.2⟩
      intro hc
      rcases mem_keys_updateBy kf k dflt f rest hc with hm | hm
      · exact h.1 hm
      · exact h1 hm

theorem updateBy_forall {κ ν : Type} {kf : κ → Nat} {k : κ} {dflt : ν} {f : ν → ν}
    {l : List (κ × ν)} (Inv : κ × ν → Prop)
    (h1 : ∀ p ∈ l, Inv p) (h2 : ∀ k' v, Inv (k', v) → Inv (k', f v))
    (h3 : Inv (k, f dflt)) : ∀ p ∈ updateBy kf k dflt f l, Inv p := by
  induction l with
  | nil =>
    intro p hp
    simp [updateBy] at hp
    exact hp ▸ h3
  | cons q rest ih =>
    obtain ⟨a, v⟩ := q
    intro p hp
    by_cases hk : kf a = kf k
    · simp only [updateBy, hk, if_pos, List.mem_cons] at hp
      rcases hp with rfl | hp
      · exact h2 a v (h1 (a, v) (by simp))
      · exact h1 p (List.mem_cons_of_mem _ hp)
    · simp only [updateBy, hk, if_neg, not_false_iff, List.mem_cons] at hp
      rcases hp with rfl | hp
      · exact h1 (a, v) (by simp)
      · exact ih (fun q hq => h1 q (List.mem_cons_of_mem _ hq)) p hp

theorem lookupBy_eq_some_of_mem {κ ν : Type} (kf : κ → Nat) {l : List (κ × ν)}
    {p : κ × ν} (hp : p ∈ l) (h : (l.map (fun q => kf q.1)).Nodup) :
    lookupBy kf p.1 l = some p.2 := by
  induction l with
  | nil => simp at hp
  | cons q rest ih =>
    obtain ⟨a, v⟩ := q
    simp only [List.map_cons, List.nodup_cons] at h
    rcases List.mem_cons.mp hp with rfl | hp
    · simp [lookupBy]
    · have hne : ¬ kf a = kf p.1 := by
        intro hc
        exact h.1 (hc ▸ (List.mem_map.mpr ⟨p, hp, rfl⟩))
      simp [lookupBy, hne, ih hp h.2]

theorem mem_of_lookupBy_eq_some {κ ν : Type} (kf : κ → Nat) {k : κ} {v : ν}
    {l : List (κ × ν)} (h : lookupBy kf k l = some v) :
    ∃ k', (k', v) ∈ l ∧ kf k' = kf k := by
  induction l with
  | nil => simp [lookupBy] at h
  | cons q rest ih =>
    obtain ⟨a, w⟩ := q
    by_cases ha : kf a = kf k
    · simp only [lookupBy, ha, if_pos, Option.some_inj] at h
      exact ⟨a, by simp [h], ha⟩
    · simp only [lookupBy, ha, if_neg, not_false_iff] at h
      rcases ih h with ⟨k', hk', hkf⟩
      exact ⟨k', List.mem_cons_of_mem _ hk', hkf⟩

theorem lookupBy_eq_none_iff {κ ν : Type} (kf : κ → Nat) (k : κ) (l : List (κ × ν)) :
    lookupBy kf k l = none ↔ kf k ∉ l.map (fun p => kf p.1) := by
  induction l with
  | nil => simp [lookupBy]
  | cons q rest ih =>
    obtain ⟨a, v⟩ := q
    by_cases ha : kf a = kf k
    · simp [lookupBy, ha]
    · simp [lookupBy, ha, ih, Ne.symm ha]

theorem lookupBy_perm {κ ν : Type} (kf : κ → Nat) (k : κ) {l l' : List (κ × ν)}
    (hperm : List.Perm l l') (h : (l.map (fun p => kf p.1)).Nodup) :
    lookupBy kf k l = lookupBy kf k l' := by
  have hkeys : List.Perm (l.map (fun p => kf p.1)) (l'.map (fun p => kf p.1)) :=
    hperm.map _
  have h' : (l'.map (fun p => kf p.1)).Nodup := hkeys.nodup_iff.mp h
  cases hv : lookupBy kf k l with
  | none =>
    have hn := (lookupBy_eq_none_iff kf k l).mp hv
    have : kf k ∉ l'.map (fun p => kf p.1) := fun hc => hn (hkeys.mem_iff.mpr hc)
    exact ((lookupBy_eq_none_iff kf k l').mpr this).symm
  | some v =>
    rcases mem_of_lookupBy_eq_some kf hv with ⟨k', hk', hkf⟩
    have hk'' : (k', v) ∈ l' := hperm.mem_iff.mp hk'
    have := lookupBy_eq_some_of_mem kf hk'' h'
    exact ((lookupBy_congr kf l' hkf).symm.trans this).symm

theorem lookupBy_map_values {κ ν ν' : Type} (kf : κ → Nat) (k : κ) (h : ν → ν')
    (l : List (κ × ν)) :
    lookupBy kf k (l.map (fun p => (p.1, h p.2))) = (lookupBy kf k l).map h := by
  induction l with
  | nil => rfl
  | cons q rest ih =>
    obtain ⟨a, v⟩ := q
    by_cases ha : kf a = kf k <;> simp [lookupBy, ha, ih]

/-! ## Lemmas about `attach_state` -/

theorem adjust_entry_isSome (i : Nat) (f : Group → Group) (gs : List (Nat × Group)) :
    (adjust_entry i f gs).isSome = (lookupBy id i gs).isSome := by
  induction gs with
  | nil => rfl
  | cons p rest ih =>
    obtain ⟨j, g⟩ := p
    by_cases h : j = i
    · simp [adjust_entry, lookupBy_cons, h]
    · simp [adjust_entry, lookupBy_cons, h, ih]

theorem adjust_lookup {i : Nat} {f : Group → Group} {gs gs2 : List (Nat × Group)}
    (h : adjust_entry i f gs = some gs2) (j : Nat) :
    lookupBy id j gs2 = if i = j then (lookupBy id j gs).map f else lookupBy id j gs := by
  induction gs generalizing gs2 with
  | nil => simp [adjust_entry] at h
  | cons p rest ih =>
    obtain ⟨a, g⟩ := p
    by_cases ha : a = i
    · subst ha
      simp only [adjust_entry, if_pos, Option.some_inj] at h
      subst h
      by_cases hj : a = j
      · subst hj
        simp [lookupBy_cons]
      · have : ¬ (id a = id j) := by simpa using hj
        simp [lookupBy_cons, this, hj]
    · simp only [adjust_entry, ha, if_neg, not_false_iff] at h
      cases hrest : adjust_entry i f rest with
      | none =>
        rw [hrest] at h
        exact Option.noConfusion h
      | some rest2 =>
        rw [hrest] at h
        simp only [Option.map_some', Option.some_inj] at h
        subst h
        by_cases hj : a = j
        · subst hj
          have hne : i ≠ a := fun hc => ha hc.symm
          simp [lookupBy_cons, hne]
        · have : ¬ (id a = id j) := by simpa using hj
          simp [lookupBy_cons, this, hj, ih hrest]

theorem adjust_keys {i : Nat} {f : Group → Group} {gs gs2 : List (Nat × Group)}
    (h : adjust_entry i f gs = some gs2) : gs2.map Prod.fst = gs.map Prod.fst := by
  induction gs generalizing gs2 with
  | nil => simp [adjust_entry] at h
  | cons p rest ih =>
    obtain ⟨a, g⟩ := p
    by_cases ha : a = i
    · subst ha
      simp only [adjust_entry, if_pos, Option.some_inj] at h
      subst h
      rfl
    · simp only [adjust_entry, ha, if_neg, not_false_iff] at h
      cases hrest : adjust_entry i f rest with
      | none =>
        rw [hrest] at h
        exact Option.noConfusion h
      | some rest2 =>
        rw [hrest] at h
        simp only [Option.map_some', Option.some_inj] at h
        subst h
        simp [ih hrest]

theorem overlay_lookup_of_not_mem {f : Group → Nat → Group}
    {gs gs2 : List (Nat × Group)} {cs : List (Nat × Nat)}
    (h : overlay_counts f gs cs = .ok gs2) {j : Nat}
    (hj : lookupBy id j cs = none) : lookupBy id j gs2 = lookupBy id j gs := by
  induction cs generalizing gs with
  | nil =>
    simp only [overlay_counts, Except.ok.injEq] at h
    subst h; rfl
  | cons p rest ih =>
    obtain ⟨i, c⟩ := p
    rw [lookupBy_cons] at hj
    by_cases hij : i = j
    · simp [hij] at hj
    · have hij' : ¬ (id i = id j) := by simpa using hij
      rw [if_neg hij'] at hj
      simp only [overlay_counts] at h
      cases hadj : adjust_entry i (fun g => f g c) gs with
      | none => rw [hadj] at h; simp at h
      | some gs1 =>
        rw [hadj] at h
        have := ih h
        rw [this hj] at *
        rw [adjust_lookup hadj j, if_neg hij]

theorem overlay_lookup_map {f : Group → Nat → Group} {π : Group → Nat}
    (hf : ∀ g c, π (f g c) = π g) {gs gs2 : List (Nat × Group)}
    {cs : List (Nat × Nat)} (h : overlay_counts f gs cs = .ok gs2) (j : Nat) :
    (lookupBy id j gs2).map π = (lookupBy id j gs).map π := by
  induction cs generalizing gs with
  | nil =>
    simp only [overlay_counts, Except.ok.injEq] at h
    subst h; rfl
  | cons p rest ih =>
    obtain ⟨i, c⟩ := p
    simp only [overlay_counts] at h
    cases hadj : adjust_entry i (fun g => f g c) gs with
    | none => rw [hadj] at h; simp at h
    | some gs1 =>
      rw [hadj] at h
      rw [ih h, adjust_lookup hadj j]
      by_cases hij : i = j
      · subst hij
        cases lookupBy id i gs with
        | none => simp
        | some g => simp [hf]
      · rw [if_neg hij]

theorem overlay_error_is_keyError {f : Group → Nat → Group}
    {gs : List (Nat × Group)} {cs : List (Nat × Nat)} {e : BuildError}
    (h : overlay_counts f gs cs = .error e) : ∃ i, e = .keyError i := by
  induction cs generalizing gs with
  | nil => simp [overlay_counts] at h
  | cons p rest ih =>
    obtain ⟨i, c⟩ := p
    simp only [overlay_counts] at h
    cases hadj : adjust_entry i (fun g => f g c) gs with
    | none =>
      rw [hadj] at h
      simp only [Except.error.injEq] at h
      exact ⟨i, h.symm⟩
    | some gs1 =>
      rw [hadj] at h
      exact ih h

theorem overlay_ok_of_all_present {f : Group → Nat → Group}
    {gs : List (Nat × Group)} {cs : List (Nat × Nat)}
    (h : ∀ p ∈ cs, (lookupBy id p.1 gs).isSome) :
    ∃ gs2, overlay_counts f gs cs = .ok gs2 := by
  induction cs generalizing gs with
  | nil => exact ⟨gs, rfl⟩
  | cons p rest ih =>
    obtain ⟨i, c⟩ := p
    have hi : (lookupBy id i gs).isSome = true := h (i, c) (by simp)
    have hadj : (adjust_entry i (fun g => f g c) gs).isSome = true := by
      rw [adjust_entry_isSome]; exact hi
    cases hval : adjust_entry i (fun g => f g c) gs with
    | none => rw [hval] at hadj; simp at hadj
    | some gs1 =>
      have hrest : ∀ p ∈ rest, (lookupBy id p.1 gs1).isSome := by
        intro q hq
        have hlk := adjust_lookup hval q.1
        by_cases hiq : i = q.1
        · rw [hlk, if_pos hiq, ← hiq]
          cases hv : lookupBy id i gs with
          | none => rw [hv] at hi; exact absurd hi (by simp)
          | some g => rfl
        · rw [hlk, if_neg hiq]
          exact h q (List.mem_cons_of_mem _ hq)
      rcases ih hrest with ⟨gs2, hgs2⟩
      exact ⟨gs2, by simp only [overlay_counts, hval, hgs2]⟩

theorem overlay_err_of_missing {f : Group → Nat → Group}
    {gs : List (Nat × Group)} {cs : List (Nat × Nat)}
    (h : ∃ p ∈ cs, lookupBy id p.1 gs = none) :
    ∃ j, overlay_counts f gs cs = .error (.keyError j) := by
  induction cs generalizing gs with
  | nil => simp at h
  | cons p rest ih =>
    obtain ⟨i, c⟩ := p
    by_cases hi : lookupBy id i gs = none
    · have hadj : (adjust_entry i (fun g => f g c) gs).isSome = false := by
        rw [adjust_entry_isSome, hi]; rfl
      cases hval : adjust_entry i (fun g => f g c) gs with
      | some gs1 => rw [hval] at hadj; simp at hadj
      | none =>
        exact ⟨i, by simp only [overlay_counts, hval]⟩
    · have hsome : (lookupBy id i gs).isSome := by
        cases hv : lookupBy id i gs with
        | none => exact absurd hv hi
        | some g => rfl
      have hadj : (adjust_entry i (fun g => f g c) gs).isSome = true := by
        rw [adjust_entry_isSome]; exact hsome
      cases hval : adjust_entry i (fun g => f g c) gs with
      | none => rw [hval] at hadj; simp at hadj
      | some gs1 =>
        rcases h with ⟨q, hq, hqnone⟩
        rcases List.mem_cons.mp hq with heq | hq
        · rw [heq] at hqnone
          exact absurd hqnone hi
        · have hq1 : lookupBy id q.1 gs1 = none := by
            rw [adjust_lookup hval q.1]
            by_cases hiq : i = q.1
            · have hcon : lookupBy id i gs = none := by rw [hiq]; exact hqnone
              exact absurd hcon hi
            · rw [if_neg hiq]
              exact hqnone
          rcases ih ⟨q, hq, hq1⟩ with ⟨j, hj⟩
          exact ⟨j, by simp only [overlay_counts, hval, hj]⟩

theorem attach_groups_ok {project : Project} {gs : List (Nat × Group)}
    (h : ∀ p ∈ gs, p.2.project_id = project.id) :
    attach_groups project gs = .ok (gs.map (fun p => (p.1, seed_group project p.2))) := by
  induction gs with
  | nil => rfl
  | cons p rest ih =>
    obtain ⟨i, g⟩ := p
    have hg : g.project_id = project.id := h (i, g) (by simp)
    have hrest : ∀ q ∈ rest, q.2.project_id = project.id :=
      fun q hq => h q (List.mem_cons_of_mem _ hq)
    simp only [attach_groups, hg, if_pos, ih hrest, List.map_cons, seed_group]

theorem attach_groups_err {project : Project} {gs : List (Nat × Group)}
    (h : ∃ p ∈ gs, p.2.project_id ≠ project.id) :
    attach_groups project gs = .error (.assertionError "Group must belong to Project") := by
  induction gs with
  | nil => simp at h
  | cons p rest ih =>
    obtain ⟨i, g⟩ := p
    by_cases hg : g.project_id = project.id
    · rcases h with ⟨q, hq, hqbad⟩
      rcases List.mem_cons.mp hq with heq | hq
      · rw [heq] at hqbad
        exact absurd hg hqbad
      · have := ih ⟨q, hq, hqbad⟩
        simp only [attach_groups, hg, if_pos, this]
    · simp only [attach_groups, hg, if_neg, not_false_iff]

theorem attach_rules_ok {project : Project} {rls : List (Nat × MRule)}
    (h : ∀ p ∈ rls, p.2.project_id = project.id) :
    attach_rules project rls =
      .ok (rls.map (fun p => (p.1, { p.2 with project := some project }))) := by
  induction rls with
  | nil => rfl
  | cons p rest ih =>
    obtain ⟨i, r⟩ := p
    have hr : r.project_id = project.id := h (i, r) (by simp)
    have hrest : ∀ q ∈ rest, q.2.project_id = project.id :=
      fun q hq => h q (List.mem_cons_of_mem _ hq)
    simp only [attach_rules, hr, if_pos, ih hrest, List.map_cons]

theorem attach_rules_err {project : Project} {rls : List (Nat × MRule)}
    (h : ∃ p ∈ rls, p.2.project_id ≠ project.id) :
    attach_rules project rls = .error (.assertionError "Rule must belong to Project") := by
  induction rls with
  | nil => simp at h
  | cons p rest ih =>
    obtain ⟨i, r⟩ := p
    by_cases hr : r.project_id = project.id
    · rcases h with ⟨q, hq, hqbad⟩
      rcases List.mem_cons.mp hq with heq | hq
      · rw [heq] at hqbad
        exact absurd hr hqbad
      · have := ih ⟨q, hq, hqbad⟩
        simp only [attach_rules, hr, if_pos, this]
    · simp only [attach_rules, hr, if_neg, not_false_iff]

/-! ## Lemmas about the key codec -/

theorem splitFirst_append {l r : PyStr} {sep : Char} (h : sep ∉ l) :
    splitFirst sep (l ++ sep :: r) = some (l, r) := by
  induction l with
  | nil => simp [splitFirst]
  | cons c l ih =>
    have hc : ¬ c = sep := fun hc => h (hc ▸ List.mem_cons_self c l)
    have hl : sep ∉ l := fun hm => h (List.mem_cons_of_mem c hm)
    simp only [List.cons_append, splitFirst, hc, if_neg, not_false_iff, List.append_eq]
    rw [ih hl]

theorem digit_char_spec {d : Nat} (h : d < 10) :
    digitVal (Char.ofNat (48 + d)) = some d ∧ 48 ≤ (Char.ofNat (48 + d)).toNat ∧
      (Char.ofNat (48 + d)).toNat ≤ 57 := by
  interval_cases d <;> exact ⟨rfl, by decide, by decide⟩

theorem natToChars_digits {n : Nat} {c : Char} (h : c ∈ natToChars n) :
    48 ≤ c.toNat ∧ c.toNat ≤ 57 := by
  by_cases h0 : n = 0
  · subst h0
    simp only [natToChars, if_pos, List.mem_singleton] at h
    subst h
    exact ⟨by decide, by decide⟩
  · simp only [natToChars, h0, if_neg, not_false_iff, List.mem_map] at h
    rcases h with ⟨d, hd, rfl⟩
    have hlt : d < 10 :=
      Nat.digits_lt_base (by norm_num) (List.mem_reverse.mp hd)
    exact (digit_char_spec hlt).2

theorem natToChars_no_colon {n : Nat} : ':' ∉ natToChars n := by
  intro h
  have := natToChars_digits h
  simp at this

theorem natToChars_ne_nil (n : Nat) : natToChars n ≠ [] := by
  by_cases h0 : n = 0
  · subst h0
    simp [natToChars]
  · simp only [natToChars, h0, if_neg, not_false_iff, ne_eq, List.map_eq_nil_iff,
      List.reverse_eq_nil_iff]
    exact Nat.digits_ne_nil_iff_ne_zero.mpr h0

theorem parseNatAux_digits {ds : List Nat} (h : ∀ d ∈ ds, d < 10) (acc : Nat) :
    parseNatAux (ds.map (fun d => Char.ofNat (48 + d))) acc =
      some (ds.foldl (fun a d => a * 10 + d) acc) := by
  induction ds generalizing acc with
  | nil => rfl
  | cons d ds ih =>
    have hd : d < 10 := h d (by simp)
    have hds : ∀ e ∈ ds, e < 10 := fun e he => h e (List.mem_cons_of_mem _ he)
    simp only [List.map_cons, parseNatAux, (digit_char_spec hd).1, List.foldl_cons]
    exact ih hds (acc * 10 + d)

theorem foldr_ofDigits (L : List Nat) :
    L.foldr (fun d a => a * 10 + d) 0 = Nat.ofDigits 10 L := by
  induction L with
  | nil => rfl
  | cons d L ih =>
    simp only [List.foldr_cons, ih, Nat.ofDigits_cons]
    ring

theorem parseNat_natToChars (n : Nat) : parseNat (natToChars n) = some n := by
  by_cases h0 : n = 0
  · subst h0
    rfl
  · have hne := natToChars_ne_nil n
    have hdig : ∀ d ∈ (Nat.digits 10 n).reverse, d < 10 := fun d hd =>
      Nat.digits_lt_base (by norm_num) (List.mem_reverse.mp hd)
    have hval : parseNatAux (natToChars n) 0 =
        some ((Nat.digits 10 n).reverse.foldl (fun a d => a * 10 + d) 0) := by
      simp only [natToChars, h0, if_neg, not_false_iff]
      exact parseNatAux_digits hdig 0
    have hfold : (Nat.digits 10 n).reverse.foldl (fun a d => a * 10 + d) 0 = n := by
      rw [List.foldl_reverse]
      have : (Nat.digits 10 n).foldr (fun d a => a * 10 + d) 0 = Nat.ofDigits 10 (Nat.digits 10 n) :=
        foldr_ofDigits _
      rw [this, Nat.ofDigits_digits]
    cases hc : natToChars n with
    | nil => exact absurd hc hne
    | cons c rest =>
      show parseNat (c :: rest) = some n
      have h1 : parseNat (c :: rest) = parseNatAux (c :: rest) 0 := rfl
      rw [h1, ← hc, hval, hfold]

theorem natToChars_head_digit {n : Nat} {c : Char} {rest : PyStr}
    (h : natToChars n = c :: rest) : 48 ≤ c.toNat ∧ c.toNat ≤ 57 :=
  natToChars_digits (h ▸ List.mem_cons_self c rest)

theorem parseInt_cons_dash (rest : PyStr) :
    parseInt ('-' :: rest) =
      match parseNat rest with
      | some n => some (-((n : Nat) : Int))
      | none => none := rfl

theorem parseInt_cons_nosign {c : Char} (rest : PyStr) (h1 : ¬ c = '-')
    (h2 : ¬ c = '+') :
    parseInt (c :: rest) =
      match parseNat (c :: rest) with
      | some n => some (((n : Nat) : Int))
      | none => none := by
  unfold parseInt
  simp only [if_neg h1, if_neg h2]

theorem parseInt_intToChars (i : Int) : parseInt (intToChars i) = some i := by
  by_cases hneg : i < 0
  · have habs : -((i.natAbs : Nat) : Int) = i := by
      omega
    have hi : intToChars i = '-' :: natToChars i.natAbs := by
      simp [intToChars, hneg]
    rw [hi, parseInt_cons_dash, parseNat_natToChars]
    show some (-((i.natAbs : Nat) : Int)) = some i
    rw [habs]
  · have habs : ((i.natAbs : Nat) : Int) = i := by
      omega
    have hi : intToChars i = natToChars i.natAbs := by
      simp [intToChars, hneg]
    rw [hi]
    cases hc : natToChars i.natAbs with
    | nil => exact absurd hc (natToChars_ne_nil _)
    | cons c rest =>
      have hd := natToChars_head_digit hc
      have hdash : ¬ c = '-' := by
        intro h
        subst h
        revert hd
        decide
      have hplus : ¬ c = '+' := by
        intro h
        subst h
        revert hd
        decide
      rw [parseInt_cons_nosign rest hdash hplus, ← hc, parseNat_natToChars]
      show some ((i.natAbs : Nat) : Int) = some i
      rw [habs]

theorem pySplitMax_zero (sep : Char) (s : PyStr) : pySplitMax sep s 0 = [s] := rfl

theorem pySplitMax_one (sep : Char) (s : PyStr) :
    pySplitMax sep s 1 =
      match splitFirst sep s with
      | none => [s]
      | some (pre, post) => pre :: pySplitMax sep post 0 := rfl

theorem pySplitMax_two (sep : Char) (s : PyStr) :
    pySplitMax sep s 2 =
      match splitFirst sep s with
      | none => [s]
      | some (pre, post) => pre :: pySplitMax sep post 1 := rfl

theorem pySplitMax_three (sep : Char) (s : PyStr) :
    pySplitMax sep s 3 =
      match splitFirst sep s with
      | none => [s]
      | some (pre, post) => pre :: pySplitMax sep post 2 := rfl

theorem pySplitMax_four (sep : Char) (s : PyStr) :
    pySplitMax sep s 4 =
      match splitFirst sep s with
      | none => [s]
      | some (pre, post) => pre :: pySplitMax sep post 3 := rfl

/-- The targeted key, rewritten into nested `cons` form. -/
theorem unsplit_key_shape (project : Project) (tt : PyStr) (tid : Option Int) :
    unsplit_key_for_targeted_action project tt tid =
      TARGETED_MAIL_ACTION_SYMBOL ++ ':' ::
        ('p' :: ':' :: (natToChars project.id ++ ':' ::
          (tt ++ ':' :: intToChars (match tid with | some t => t | none => -1)))) := by
  unfold unsplit_key_for_targeted_action
  have h1 : (":p:").data = [':', 'p', ':'] := rfl
  have h2 : (":").data = [':'] := rfl
  rw [h1, h2]
  simp [List.append_assoc]

/-- Splitting the targeted key recovers its five segments, provided the
target type contains no separator. -/
theorem pySplitMax_unsplit (project : Project) (tt : PyStr) (sid : Int)
    (h : ':' ∉ tt) :
    pySplitMax ':'
      (TARGETED_MAIL_ACTION_SYMBOL ++ ':' ::
        ('p' :: ':' :: (natToChars project.id ++ ':' :: (tt ++ ':' :: intToChars sid)))) 4 =
      [TARGETED_MAIL_ACTION_SYMBOL, ['p'], natToChars project.id, tt, intToChars sid] := by
  have hsym : ':' ∉ TARGETED_MAIL_ACTION_SYMBOL := by decide
  have hp : ':' ∉ ['p'] := by decide
  have s1 := @splitFirst_append TARGETED_MAIL_ACTION_SYMBOL
    ('p' :: ':' :: (natToChars project.id ++ ':' :: (tt ++ ':' :: intToChars sid))) ':' hsym
  have s2 := @splitFirst_append ['p']
    (natToChars project.id ++ ':' :: (tt ++ ':' :: intToChars sid)) ':' hp
  have s3 := @splitFirst_append (natToChars project.id) (tt ++ ':' :: intToChars sid) ':'
    (@natToChars_no_colon project.id)
  have s4 := @splitFirst_append tt (intToChars sid) ':' h
  rw [show (['p'] ++ ':' :: (natToChars project.id ++ ':' :: (tt ++ ':' :: intToChars sid))) =
    'p' :: ':' :: (natToChars project.id ++ ':' :: (tt ++ ':' :: intToChars sid)) from rfl] at s2
  simp only [pySplitMax_four, s1, pySplitMax_three, s2, pySplitMax_two, s3,
    pySplitMax_one, s4, pySplitMax_zero]

/-! ## Lemmas about the pipeline -/

theorem survivors_eq_filterMap (st : AttachedState) (rs : List (Record Nat)) :
    survivors st rs = rs.filterMap (rewrite_record st) := by
  unfold survivors rewritten
  have h1 : ∀ l : List (Option (Record MRule)),
      (l.filter Option.isSome).filterMap id = l.filterMap id := by
    intro l
    induction l with
    | nil => rfl
    | cons a l ih => cases a <;> simp [List.filter, ih]
  rw [h1, List.filterMap_map]
  rfl

theorem leafOf_nil (rl : MRule) (g : Group) : leafOf [] rl g = [] := rfl

theorem leafOf_appendLeaf (d : Digest) (rl' rl : MRule) (g' g : Group)
    (r : Record MRule) :
    leafOf (appendLeaf d rl' g' r) rl g =
      leafOf d rl g ++ (if rl'.id = rl.id ∧ g'.id = g.id then [r] else []) := by
  unfold leafOf appendLeaf
  rw [lookupBy_updateBy]
  by_cases h1 : MRule.id rl' = MRule.id rl
  · rw [if_pos h1, Option.getD_some, lookupBy_updateBy,
      lookupBy_congr MRule.id d h1.symm]
    by_cases h2 : Group.id g' = Group.id g
    · rw [if_pos h2, Option.getD_some, if_pos ⟨h1, h2⟩,
        lookupBy_congr Group.id ((lookupBy MRule.id rl' d).getD []) h2.symm]
    · rw [if_neg h2, if_neg (fun hc => h2 hc.2)]
      simp
  · rw [if_neg h1, if_neg (fun hc => h1 hc.1)]
    simp

theorem leafOf_foldl_rules (rls : List MRule) (d : Digest) (g0 : Group)
    (r : Record MRule) (rl : MRule) (g : Group) :
    leafOf (rls.foldl (fun d2 rule => appendLeaf d2 rule g0 r) d) rl g =
      leafOf d rl g ++
        (if g0.id = g.id then
          List.replicate (rls.countP (fun x => x.id == rl.id)) r
        else []) := by
  induction rls generalizing d with
  | nil => simp
  | cons a rls ih =>
    rw [List.foldl_cons, ih, leafOf_appendLeaf]
    by_cases hgg : g0.id = g.id
    · by_cases ha : a.id = rl.id
      · simp only [ha, hgg, List.countP_cons, if_pos, and_self, beq_self_eq_true,
          if_true, List.append_assoc, List.singleton_append]
        rw [List.replicate_succ]
      · have hbeq : (a.id == rl.id) = false := by simpa using ha
        simp [hbeq, hgg, List.countP_cons, ha]
    · simp [hgg]

theorem leafOf_group_records (d : Digest) (r : Record MRule) (rl : MRule) (g : Group) :
    leafOf (group_records d r) rl g = leafOf d rl g ++ contribution r rl g := by
  unfold group_records contribution
  cases hg : r.value.event.group with
  | none => simp
  | some g0 => exact leafOf_foldl_rules _ _ _ _ _ _

theorem leafOf_foldl_records (srv : List (Record MRule)) (d : Digest)
    (rl : MRule) (g : Group) :
    leafOf (srv.foldl group_records d) rl g =
      leafOf d rl g ++ srv.flatMap (fun r => contribution r rl g) := by
  induction srv generalizing d with
  | nil => simp
  | cons r srv ih =>
    rw [List.foldl_cons, ih, leafOf_group_records, List.flatMap_cons, List.append_assoc]

theorem grouped_leaf (st : AttachedState) (rs : List (Record Nat)) (rl : MRule)
    (g : Group) :
    leafOf (grouped st rs) rl g =
      (alive st rs).flatMap (fun r => contribution r rl g) := by
  unfold grouped
  rw [leafOf_foldl_records, leafOf_nil, List.nil_append]

theorem digestKeysOK_appendLeaf {d : Digest} (h : DigestKeysOK d) (rl : MRule)
    (g : Group) (r : Record MRule) : DigestKeysOK (appendLeaf d rl g r) := by
  unfold DigestKeysOK appendLeaf at *
  refine ⟨nodupKeys_updateBy _ _ _ _ _ h.1, ?_⟩
  refine updateBy_forall
    (fun p : MRule × List (Group × List (Record MRule)) =>
      (p.2.map (fun q => q.1.id)).Nodup) ?_ ?_ ?_
  · exact h.2
  · intro k' v hv
    exact nodupKeys_updateBy _ _ _ _ _ hv
  · rw [updateBy_nil]
    simp

theorem digestKeysOK_group_records {d : Digest} (h : DigestKeysOK d)
    (r : Record MRule) : DigestKeysOK (group_records d r) := by
  have hfold : ∀ (rls : List MRule) (g0 : Group) (d2 : Digest), DigestKeysOK d2 →
      DigestKeysOK (rls.foldl (fun d3 rule => appendLeaf d3 rule g0 r) d2) := by
    intro rls g0
    induction rls with
    | nil => intro d2 hd; exact hd
    | cons a rls ih =>
      intro d2 hd
      rw [List.foldl_cons]
      exact ih _ (digestKeysOK_appendLeaf hd a g0 r)
  unfold group_records
  cases r.value.event.group with
  | none => exact h
  | some g0 => exact hfold _ g0 d h

theorem digestKeysOK_grouped (st : AttachedState) (rs : List (Record Nat)) :
    DigestKeysOK (grouped st rs) := by
  have hfold : ∀ (srv : List (Record MRule)) (d : Digest), DigestKeysOK d →
      DigestKeysOK (srv.foldl group_records d) := by
    intro srv
    induction srv with
    | nil => intro d hd; exact hd
    | cons r srv ih =>
      intro d hd
      rw [List.foldl_cons]
      exact ih _ (digestKeysOK_group_records hd r)
  exact hfold _ _ ⟨by simp, by simp⟩

theorem outer_keys_sort_group_contents (d : Digest) :
    (sort_group_contents d).map (fun p => p.1.id) = d.map (fun p => p.1.id) := by
  unfold sort_group_contents
  rw [List.map_map]
  rfl

theorem digestKeysOK_sorts {d : Digest} (h : DigestKeysOK d) :
    DigestKeysOK (sort_rule_groups (sort_group_contents d)) := by
  unfold DigestKeysOK at *
  constructor
  · have hperm : List.Perm (sort_rule_groups (sort_group_contents d)) (sort_group_contents d) := by
      unfold sort_rule_groups
      exact sortBy_perm _ _
    have := (hperm.map (fun p => p.1.id)).nodup_iff
    rw [this, outer_keys_sort_group_contents]
    exact h.1
  · intro p hp
    have hp2 : p ∈ sort_group_contents d := by
      unfold sort_rule_groups at hp
      exact (mem_sortBy _ _ _).mp hp
    unfold sort_group_contents at hp2
    rcases List.mem_map.mp hp2 with ⟨kv, hkv, rfl⟩
    have hperm : List.Perm (sortBy
        (fun a b => pairGE (group_sort_key a) (group_sort_key b)) kv.2) kv.2 :=
      sortBy_perm _ _
    exact (hperm.map (fun q => q.1.id)).nodup_iff.mpr (h.2 kv hkv)

theorem digestKeysOK_run_pipeline (st : AttachedState) (rs : List (Record Nat)) :
    DigestKeysOK (run_pipeline st rs) :=
  digestKeysOK_sorts (digestKeysOK_grouped st rs)

theorem leafOf_sort_group_contents {d : Digest} (h : DigestKeysOK d) (rl : MRule)
    (g : Group) : leafOf (sort_group_contents d) rl g = leafOf d rl g := by
  unfold leafOf sort_group_contents
  rw [lookupBy_map_values]
  cases hlk : lookupBy MRule.id rl d with
  | none => simp
  | some gs =>
    simp only [Option.map_some', Option.getD_some]
    have hnodup : (gs.map (fun q => q.1.id)).Nodup := by
      rcases mem_of_lookupBy_eq_some MRule.id hlk with ⟨k', hk', _⟩
      exact h.2 (k', gs) hk'
    rw [← lookupBy_perm Group.id g ((sortBy_perm _ gs).symm) hnodup]

theorem leafOf_sort_rule_groups {d : Digest}
    (hnodup : (d.map (fun p => p.1.id)).Nodup) (rl : MRule) (g : Group) :
    leafOf (sort_rule_groups d) rl g = leafOf d rl g := by
  unfold leafOf sort_rule_groups
  rw [← lookupBy_perm MRule.id rl ((sortBy_perm _ d).symm) hnodup]

theorem leafOf_run_pipeline (st : AttachedState) (rs : List (Record Nat))
    (rl : MRule) (g : Group) :
    leafOf (run_pipeline st rs) rl g = leafOf (grouped st rs) rl g := by
  unfold run_pipeline
  have h1 : ((sort_group_contents (grouped st rs)).map (fun p => p.1.id)).Nodup := by
    rw [outer_keys_sort_group_contents]
    exact (digestKeysOK_grouped st rs).1
  rw [leafOf_sort_rule_groups h1,
    leafOf_sort_group_contents (digestKeysOK_grouped st rs)]

theorem entry_leafOf {d : Digest} (h : DigestKeysOK d) {pa : MRule × List (Group × List (Record MRule))}
    (hpa : pa ∈ d) {q : Group × List (Record MRule)} (hq : q ∈ pa.2) :
    leafOf d pa.1 q.1 = q.2 := by
  unfold leafOf
  rw [lookupBy_eq_some_of_mem MRule.id hpa h.1, Option.getD_some,
    lookupBy_eq_some_of_mem Group.id hq (h.2 pa hpa), Option.getD_some]

theorem mem_run_pipeline_entries {st : AttachedState} {rs : List (Record Nat)}
    {pa : MRule × List (Group × List (Record MRule))} (hpa : pa ∈ run_pipeline st rs)
    {q : Group × List (Record MRule)} (hq : q ∈ pa.2) :
    q.2 = (alive st rs).flatMap (fun r => contribution r pa.1 q.1) := by
  rw [← grouped_leaf, ← leafOf_run_pipeline,
    entry_leafOf (digestKeysOK_run_pipeline st rs) hpa hq]

theorem contribution_mem {r rec : Record MRule} {rl : MRule} {g : Group}
    (h : rec ∈ contribution r rl g) : rec = r := by
  unfold contribution at h
  cases hg : r.value.event.group with
  | none => rw [hg] at h; simp at h
  | some g0 =>
    rw [hg] at h
    dsimp only at h
    by_cases hid : g0.id = g.id
    · rw [if_pos hid] at h
      exact List.eq_of_mem_replicate h
    · rw [if_neg hid] at h
      simp at h

theorem contribution_eq_filter {r : Record MRule} {rl : MRule} {g : Group}
    (hnd : (r.value.rules.map MRule.id).Nodup) :
    contribution r rl g = if leafPred rl g r then [r] else [] := by
  unfold contribution leafPred
  cases hg : r.value.event.group with
  | none => simp
  | some g0 =>
    have hcnt : r.value.rules.countP (fun x => x.id == rl.id) =
        (r.value.rules.map MRule.id).count rl.id := by
      rw [List.count_eq_countP, List.countP_map]
      rfl
    dsimp only
    by_cases hid : g0.id = g.id
    · rw [if_pos hid]
      by_cases hmem : rl.id ∈ r.value.rules.map MRule.id
      · have hany : (r.value.rules.any (fun x => x.id == rl.id)) = true := by
          rw [List.any_eq_true]
          rcases List.mem_map.mp hmem with ⟨x, hx, hxid⟩
          exact ⟨x, hx, by simp [hxid]⟩
        have h1 : r.value.rules.countP (fun x => x.id == rl.id) = 1 := by
          rw [hcnt]
          exact List.count_eq_one_of_mem hnd hmem
        simp [h1, hany, hid]
      · have hany : (r.value.rules.any (fun x => x.id == rl.id)) = false := by
          rw [Bool.eq_false_iff]
          intro hc
          rcases List.any_eq_true.mp hc with ⟨x, hx, hxid⟩
          exact hmem (List.mem_map.mpr ⟨x, hx, by simpa using hxid⟩)
        have h0 : r.value.rules.countP (fun x => x.id == rl.id) = 0 := by
          rw [hcnt]
          exact List.count_eq_zero.mpr hmem
        simp [h0, hany, hid]
    · rw [if_neg hid]
      have : (g0.id == g.id) = false := by simpa using hid
      simp [this]

theorem flatMap_congr_filter {α : Type} [DecidableEq α] {l : List α}
    {f : α → List α} {p : α → Bool}
    (h : ∀ r ∈ l, f r = if p r then [r] else []) : l.flatMap f = l.filter p := by
  induction l with
  | nil => rfl
  | cons a l ih =>
    rw [List.flatMap_cons, h a (by simp),
      ih (fun r hr => h r (List.mem_cons_of_mem _ hr))]
    by_cases hp : p a <;> simp [List.filter_cons, hp]

theorem run_pipeline_leaf_filter (st : AttachedState) (rs : List (Record Nat))
    (rl : MRule) (g : Group)
    (hrules : ∀ r ∈ alive st rs, (r.value.rules.map MRule.id).Nodup) :
    leafOf (run_pipeline st rs) rl g = (alive st rs).filter (leafPred rl g) := by
  rw [leafOf_run_pipeline, grouped_leaf]
  exact flatMap_congr_filter (fun r hr => contribution_eq_filter (hrules r hr))

theorem leaf_mem_alive {st : AttachedState} {rs : List (Record Nat)} {rl : MRule}
    {g : Group} {rec : Record MRule}
    (h : rec ∈ leafOf (run_pipeline st rs) rl g) : rec ∈ alive st rs := by
  rw [leafOf_run_pipeline, grouped_leaf] at h
  rcases List.mem_flatMap.mp h with ⟨r, hr, hmem⟩
  rw [contribution_mem hmem]
  exact hr

/-! ## The status / non-emptiness invariant (C3) -/

theorem inv_appendLeaf {d : Digest} {rl : MRule} {g : Group} {r : Record MRule}
    (hInv : ∀ pa ∈ d, ∀ q ∈ pa.2, q.2 ≠ [] ∧ get_status q.1 = GroupStatus.unresolved)
    (hg : get_status g = GroupStatus.unresolved) :
    ∀ pa ∈ appendLeaf d rl g r, ∀ q ∈ pa.2,
      q.2 ≠ [] ∧ get_status q.1 = GroupStatus.unresolved := by
  unfold appendLeaf
  refine updateBy_forall
    (fun pa : MRule × List (Group × List (Record MRule)) =>
      ∀ q ∈ pa.2, q.2 ≠ [] ∧ get_status q.1 = GroupStatus.unresolved) hInv ?_ ?_
  · intro k' v hv
    refine updateBy_forall
      (fun q : Group × List (Record MRule) =>
        q.2 ≠ [] ∧ get_status q.1 = GroupStatus.unresolved) hv ?_ ?_
    · intro g' leaf hleaf
      exact ⟨by simp, hleaf.2⟩
    · exact ⟨by simp, hg⟩
  · intro q hq
    rw [updateBy_nil] at hq
    simp only [List.mem_singleton] at hq
    subst hq
    exact ⟨by simp, hg⟩

theorem inv_group_records {d : Digest} {r : Record MRule}
    (hInv : ∀ pa ∈ d, ∀ q ∈ pa.2, q.2 ≠ [] ∧ get_status q.1 = GroupStatus.unresolved)
    (hr : ∀ g0, r.value.event.group = some g0 → get_status g0 = GroupStatus.unresolved) :
    ∀ pa ∈ group_records d r, ∀ q ∈ pa.2,
      q.2 ≠ [] ∧ get_status q.1 = GroupStatus.unresolved := by
  have hfold : ∀ (rls : List MRule) (g0 : Group) (d2 : Digest),
      get_status g0 = GroupStatus.unresolved →
      (∀ pa ∈ d2, ∀ q ∈ pa.2, q.2 ≠ [] ∧ get_status q.1 = GroupStatus.unresolved) →
      ∀ pa ∈ rls.foldl (fun d3 rule => appendLeaf d3 rule g0 r) d2, ∀ q ∈ pa.2,
        q.2 ≠ [] ∧ get_status q.1 = GroupStatus.unresolved := by
    intro rls g0
    induction rls with
    | nil => intro d2 _ hd; exact hd
    | cons a rls ih =>
      intro d2 hg0 hd
      rw [List.foldl_cons]
      exact ih _ hg0 (inv_appendLeaf hd hg0)
  unfold group_records
  cases hgr : r.value.event.group with
  | none => exact hInv
  | some g0 => exact hfold _ g0 d (hr g0 hgr) hInv

theorem alive_status (st : AttachedState) (rs : List (Record Nat)) :
    ∀ r ∈ alive st rs, ∀ g0, r.value.event.group = some g0 →
      get_status g0 = GroupStatus.unresolved := by
  intro r hr g0 hg0
  unfold alive at hr
  have hchk := (List.mem_filter.mp hr).2
  unfold check_group_state at hchk
  rw [hg0] at hchk
  simpa using hchk

theorem grouped_inv (st : AttachedState) (rs : List (Record Nat)) :
    ∀ pa ∈ grouped st rs, ∀ q ∈ pa.2,
      q.2 ≠ [] ∧ get_status q.1 = GroupStatus.unresolved := by
  have hfold : ∀ (srv : List (Record MRule)) (d : Digest),
      (∀ r ∈ srv, ∀ g0, r.value.event.group = some g0 →
        get_status g0 = GroupStatus.unresolved) →
      (∀ pa ∈ d, ∀ q ∈ pa.2, q.2 ≠ [] ∧ get_status q.1 = GroupStatus.unresolved) →
      ∀ pa ∈ srv.foldl group_records d, ∀ q ∈ pa.2,
        q.2 ≠ [] ∧ get_status q.1 = GroupStatus.unresolved := by
    intro srv
    induction srv with
    | nil => intro d _ hd; exact hd
    | cons r srv ih =>
      intro d hsrv hd
      rw [List.foldl_cons]
      exact ih _ (fun r2 hr2 => hsrv r2 (List.mem_cons_of_mem _ hr2))
        (inv_group_records hd (hsrv r (by simp)))
  exact hfold _ _ (alive_status st rs) (by simp)

theorem run_pipeline_inv (st : AttachedState) (rs : List (Record Nat)) :
    ∀ pa ∈ run_pipeline st rs, ∀ q ∈ pa.2,
      q.2 ≠ [] ∧ get_status q.1 = GroupStatus.unresolved := by
  intro pa hpa q hq
  unfold run_pipeline sort_rule_groups at hpa
  have hpa2 : pa ∈ sort_group_contents (grouped st rs) := (mem_sortBy _ _ _).mp hpa
  unfold sort_group_contents at hpa2
  rcases List.mem_map.mp hpa2 with ⟨kv, hkv, rfl⟩
  have hq2 : q ∈ kv.2 := (mem_sortBy _ _ _).mp hq
  exact grouped_inv st rs kv hkv q hq2

/-! ## The rewrite side effect (C8) -/

theorem rewrite_attach_effect (st : AttachedState) (r : Record Nat) :
    rewrite_record st (attach_effect st r) = rewrite_record st r := by
  cases hlk : lookupBy id r.value.event.group_id st.groups with
  | none =>
    have heff : attach_effect st r = r := by
      unfold attach_effect
      rw [hlk]
    rw [heff]
  | some g =>
    have heff : attach_effect st r =
        { r with value := { r.value with
            event := { r.value.event with group := some g } } } := by
      unfold attach_effect
      rw [hlk]
    rw [heff]
    unfold rewrite_record
    dsimp only

theorem attach_effect_idem (st : AttachedState) (r : Record Nat) :
    attach_effect st (attach_effect st r) = attach_effect st r := by
  cases hlk : lookupBy id r.value.event.group_id st.groups with
  | none =>
    have heff : attach_effect st r = r := by
      unfold attach_effect
      rw [hlk]
    rw [heff, heff]
  | some g =>
    have heff : attach_effect st r =
        { r with value := { r.value with
            event := { r.value.event with group := some g } } } := by
      unfold attach_effect
      rw [hlk]
    rw [heff]
    unfold attach_effect
    dsimp only
    rw [hlk]

theorem run_pipeline_effect (st : AttachedState) (rs : List (Record Nat)) :
    run_pipeline st (effect_records st rs) = run_pipeline st rs := by
  have hrw : rewritten st (effect_records st rs) = rewritten st rs := by
    unfold rewritten effect_records
    rw [List.map_map]
    exact List.map_congr_left (fun r _ => rewrite_attach_effect st r)
  unfold run_pipeline grouped alive survivors
  rw [hrw]

/-! ## Prelude for the claim theorems -/

theorem pairGE_iff (x y : Nat × Nat) :
    pairGE x y = true ↔ (y.1 < x.1 ∨ (x.1 = y.1 ∧ y.2 ≤ x.2)) := by
  unfold pairGE
  simp

theorem build_digest_empty (env : FetchEnv) (project : Project)
    (stO : Option FetchedState) : build_digest env project [] stO = .ok none := by
  unfold build_digest
  rw [dif_pos rfl]

theorem build_digest_cases (env : FetchEnv) (project : Project)
    (rs : List (Record Nat)) (stO : Option FetchedState) (hrs : rs ≠ []) :
    (∃ e, build_digest env project rs stO = .error e) ∨
    (∃ st, build_digest env project rs stO = .ok (some (run_pipeline st rs))) := by
  unfold build_digest
  rw [dif_neg hrs]
  cases stO with
  | none =>
    dsimp only
    cases hA : attach_state (fetch_state env project rs hrs).project
        (fetch_state env project rs hrs).groups (fetch_state env project rs hrs).rules
        (fetch_state env project rs hrs).event_counts
        (fetch_state env project rs hrs).user_counts with
    | error e => exact Or.inl ⟨e, rfl⟩
    | ok st => exact Or.inr ⟨st, rfl⟩
  | some s =>
    dsimp only
    cases hA : attach_state s.project s.groups s.rules s.event_counts s.user_counts with
    | error e => exact Or.inl ⟨e, rfl⟩
    | ok st => exact Or.inr ⟨st, rfl⟩

theorem build_digest_some {env : FetchEnv} {project : Project}
    {rs : List (Record Nat)} {stO : Option FetchedState} {d : Digest}
    (h : build_digest env project rs stO = .ok (some d)) :
    ∃ st, d = run_pipeline st rs := by
  by_cases hrs : rs = []
  · subst hrs
    rw [build_digest_empty] at h
    simp at h
  · rcases build_digest_cases env project rs stO hrs with ⟨e, he⟩ | ⟨st, hst⟩
    · rw [he] at h
      simp at h
    · rw [hst] at h
      simp only [Except.ok.injEq, Option.some_inj] at h
      exact ⟨st, h.symm⟩

theorem overlay_keys {f : Group → Nat → Group} {gs gs2 : List (Nat × Group)}
    {cs : List (Nat × Nat)} (h : overlay_counts f gs cs = .ok gs2) :
    gs2.map Prod.fst = gs.map Prod.fst := by
  induction cs generalizing gs with
  | nil =>
    simp only [overlay_counts, Except.ok.injEq] at h
    subst h
    rfl
  | cons p rest ih =>
    obtain ⟨i, c⟩ := p
    simp only [overlay_counts] at h
    cases hadj : adjust_entry i (fun g => f g c) gs with
    | none =>
      rw [hadj] at h
      simp at h
    | some gs1 =>
      rw [hadj] at h
      rw [ih h, adjust_keys hadj]

/-! ## Claim theorems -/

/-- C1: `build_digest` returns `None` when the materialized input record
batch is empty; for every non-empty batch, whenever it returns (it can also
abort on an `attach_state` fault), the returned value is a nested ordered
mapping — possibly empty at every level — and never `None`. -/
theorem c1_thm (env : FetchEnv) (project : Project) (rs : List (Record Nat))
    (stO : Option FetchedState) :
    (rs = [] → build_digest env project rs stO = .ok none) ∧
    (rs ≠ [] → ∀ od, build_digest env project rs stO = .ok od → od.isSome = true) := by
  constructor
  · intro h
    subst h
    exact build_digest_empty env project stO
  · intro hrs od hok
    rcases build_digest_cases env project rs stO hrs with ⟨e, he⟩ | ⟨st, hst⟩
    · rw [he] at hok
      simp at hok
    · rw [hst] at hok
      simp only [Except.ok.injEq] at hok
      rw [← hok]
      rfl

theorem c1_thm_witness :
    build_digest wEnv wProject [] (some wState) = .ok none ∧
    (some ([(wRuleA, [(wGroupA, [wRecordR])])] : Digest)).isSome = true :=
  ⟨(c1_thm wEnv wProject [] (some wState)).1 rfl,
   (c1_thm wEnv wProject [wRecord] (some wState)).2 (List.cons_ne_nil _ _)
     (some [(wRuleA, [(wGroupA, [wRecordR])])]) (by rfl)⟩

/-- C3: in every digest produced by `build_digest`, every leaf record list
is non-empty, and every entity occurring as an inner key has status
UNRESOLVED as read during the build. -/
theorem c3_thm (env : FetchEnv) (project : Project) (rs : List (Record Nat))
    (stO : Option FetchedState) {d : Digest}
    (h : build_digest env project rs stO = .ok (some d)) :
    ∀ pa ∈ d, ∀ q ∈ pa.2, q.2 ≠ [] ∧ get_status q.1 = GroupStatus.unresolved := by
  rcases build_digest_some h with ⟨st, rfl⟩
  exact run_pipeline_inv st rs

theorem c3_thm_witness :
    [wRecordR] ≠ [] ∧ get_status wGroupA = GroupStatus.unresolved :=
  c3_thm wEnv wProject [wRecord] (some wState) (by rfl)
    (wRuleA, [(wGroupA, [wRecordR])]) (by decide)
    (wGroupA, [wRecordR]) (by decide)

/-- C7: for every non-empty record batch (given newest first),
`fetch_state` queries the counter service over the interval
`start = timestamp of the last record`, `end = timestamp of the first
record`. -/
theorem c7_thm (env : FetchEnv) (project : Project) (rs : List (Record Nat))
    (h : rs ≠ []) :
    (fetch_state env project rs h).event_counts =
      env.getSums ((fetch_state env project rs h).groups.map Prod.fst)
        ((rs.getLast h).timestamp) ((rs.head h).timestamp) ∧
    (fetch_state env project rs h).user_counts =
      env.getDistinctCountsTotals ((fetch_state env project rs h).groups.map Prod.fst)
        ((rs.getLast h).timestamp) ((rs.head h).timestamp) :=
  ⟨rfl, rfl⟩

theorem c7_thm_witness :
    (fetch_state wEnv wProject [wRecord, wRec2] (List.cons_ne_nil _ _)).event_counts =
      wEnv.getSums
        ((fetch_state wEnv wProject [wRecord, wRec2] (List.cons_ne_nil _ _)).groups.map Prod.fst)
        (([wRecord, wRec2].getLast (List.cons_ne_nil _ _)).timestamp)
        (([wRecord, wRec2].head (List.cons_ne_nil _ _)).timestamp) ∧
    (fetch_state wEnv wProject [wRecord, wRec2] (List.cons_ne_nil _ _)).user_counts =
      wEnv.getDistinctCountsTotals
        ((fetch_state wEnv wProject [wRecord, wRec2] (List.cons_ne_nil _ _)).groups.map Prod.fst)
        (([wRecord, wRec2].getLast (List.cons_ne_nil _ _)).timestamp)
        (([wRecord, wRec2].head (List.cons_ne_nil _ _)).timestamp) :=
  c7_thm wEnv wProject [wRecord, wRec2] (List.cons_ne_nil _ _)

/-- C8: the assembled pipeline is idempotent with respect to repetition:
run on the same attached state a second time — the caller's records now
carrying the entity back-references the first run attached — it yields the
identical digest, and the attach mutation itself is idempotent. -/
theorem c8_thm (st : AttachedState) (rs : List (Record Nat)) :
    run_pipeline st (effect_records st rs) = run_pipeline st rs ∧
    effect_records st (effect_records st rs) = effect_records st rs := by
  refine ⟨run_pipeline_effect st rs, ?_⟩
  unfold effect_records
  rw [List.map_map]
  exact List.map_congr_left (fun r _ => attach_effect_idem st r)

/-- C2: in the result of `build_digest`, a rule with strictly more mapped
entities precedes one with fewer, and within one rule an entity whose
`(event_count, user_count)` key is lexicographically strictly greater
precedes one with a smaller key. -/
theorem c2_thm (env : FetchEnv) (project : Project) (rs : List (Record Nat))
    (stO : Option FetchedState) {d : Digest}
    (h : build_digest env project rs stO = .ok (some d)) :
    (∀ i j : Fin d.length,
      (d.get j).2.length < (d.get i).2.length → (i : Nat) < (j : Nat)) ∧
    (∀ pa ∈ d, ∀ i j : Fin pa.2.length,
      pairGT (group_sort_key (pa.2.get i)) (group_sort_key (pa.2.get j)) →
        (i : Nat) < (j : Nat)) := by
  rcases build_digest_some h with ⟨st, rfl⟩
  constructor
  · have hpw : (run_pipeline st rs).Pairwise
        (fun a b => decide (b.2.length ≤ a.2.length) = true) := by
      unfold run_pipeline sort_rule_groups
      refine sortBy_pairwise ?_ ?_ _
      · intro x y
        simp only [decide_eq_true_eq]
        omega
      · intro x y z
        simp only [decide_eq_true_eq]
        omega
    intro i j hlt
    rcases Nat.lt_trichotomy (i : Nat) (j : Nat) with hij | hij | hij
    · exact hij
    · exact absurd hlt (by rw [Fin.ext hij]; omega)
    · have := List.pairwise_iff_get.mp hpw j i hij
      simp only [decide_eq_true_eq] at this
      omega
  · intro pa hpa i j hgt
    have hpa2 : pa ∈ sort_group_contents (grouped st rs) := by
      unfold run_pipeline sort_rule_groups at hpa
      exact (mem_sortBy _ _ _).mp hpa
    unfold sort_group_contents at hpa2
    rcases List.mem_map.mp hpa2 with ⟨kv, hkv, rfl⟩
    dsimp only at hgt
    have hpw : (sortBy (fun a b => pairGE (group_sort_key a) (group_sort_key b)) kv.2).Pairwise
        (fun a b => pairGE (group_sort_key a) (group_sort_key b) = true) := by
      refine sortBy_pairwise ?_ ?_ _
      · intro x y
        rw [pairGE_iff, pairGE_iff]
        omega
      · intro x y z
        rw [pairGE_iff, pairGE_iff, pairGE_iff]
        omega
    rcases Nat.lt_trichotomy (i : Nat) (j : Nat) with hij | hij | hij
    · exact hij
    · exact absurd hgt (by rw [Fin.ext hij]; unfold pairGT; omega)
    · have := List.pairwise_iff_get.mp hpw j i hij
      rw [pairGE_iff] at this
      unfold pairGT at hgt
      omega

theorem c2_thm_witness :
    (∀ i j : Fin ([(wRuleA, [(wGroupA, [wRecordR])])] : Digest).length,
      (([(wRuleA, [(wGroupA, [wRecordR])])] : Digest).get j).2.length <
          (([(wRuleA, [(wGroupA, [wRecordR])])] : Digest).get i).2.length →
        (i : Nat) < (j : Nat)) ∧
    (∀ pa ∈ ([(wRuleA, [(wGroupA, [wRecordR])])] : Digest), ∀ i j : Fin pa.2.length,
      pairGT (group_sort_key (pa.2.get i)) (group_sort_key (pa.2.get j)) →
        (i : Nat) < (j : Nat)) :=
  c2_thm wEnv wProject [wRecord] (some wState) (by rfl)

/-- C4: during the rewrite stage a record whose entity id does not resolve
is dropped (rewrites to `None` and hence reaches no leaf of the digest),
while a record whose entity resolves is kept with every unresolvable rule
id silently omitted from its rebuilt rule list; a record whose rebuilt
rule list is empty is retained by the rewrite but joins no group. -/
theorem c4_thm (st : AttachedState) :
    (∀ r : Record Nat, lookupBy id r.value.event.group_id st.groups = none →
      rewrite_record st r = none) ∧
    (∀ (r : Record Nat) (g : Group),
      lookupBy id r.value.event.group_id st.groups = some g →
      rewrite_record st r = some ⟨r.key,
        ⟨{ r.value.event with group := some g },
         r.value.rules.filterMap (fun i => lookupBy id i st.rules)⟩, r.timestamp⟩) ∧
    (∀ r2 : Record MRule, r2.value.rules = [] → ∀ d : Digest, group_records d r2 = d) ∧
    (∀ rs : List (Record Nat), ∀ pa ∈ run_pipeline st rs, ∀ q ∈ pa.2, ∀ rec ∈ q.2,
      rec ∈ rs.filterMap (rewrite_record st)) := by
  refine ⟨?_, ?_, ?_, ?_⟩
  · intro r hnone
    unfold rewrite_record
    dsimp only
    rw [hnone]
  · intro r g hg
    unfold rewrite_record
    dsimp only
    rw [hg]
  · intro r2 hr2 d
    unfold group_records
    cases hg : r2.value.event.group with
    | none => rfl
    | some g0 =>
      rw [hr2]
      rfl
  · intro rs pa hpa q hq rec hrec
    have hleaf : rec ∈ leafOf (run_pipeline st rs) pa.1 q.1 := by
      rw [entry_leafOf (digestKeysOK_run_pipeline st rs) hpa hq]
      exact hrec
    have halive : rec ∈ alive st rs := leaf_mem_alive hleaf
    have hsrv : rec ∈ survivors st rs := by
      unfold alive at halive
      exact (List.mem_filter.mp halive).1
    rw [survivors_eq_filterMap] at hsrv
    exact hsrv

theorem c4_thm_witness :
    rewrite_record wAttached ⟨102, ⟨⟨102, 42, none⟩, [10]⟩, 6⟩ = none ∧
    rewrite_record wAttached wRecord = some wRecordR ∧
    group_records [] ⟨103, ⟨⟨103, 7, some wGroupA⟩, []⟩, 5⟩ = [] ∧
    wRecordR ∈ [wRecord].filterMap (rewrite_record wAttached) := by
  refine ⟨(c4_thm wAttached).1 _ (by rfl), ?_, (c4_thm wAttached).2.2.1 _ rfl [], ?_⟩
  · have hb := (c4_thm wAttached).2.1 wRecord wGroupA (by rfl)
    exact hb.trans (by rfl)
  · exact (c4_thm wAttached).2.2.2 [wRecord]
      (wRuleA, [(wGroupA, [wRecordR])]) (by decide)
      (wGroupA, [wRecordR]) (by decide) wRecordR (by decide)

/-- C5: `attach_state` asserts that every group and every rule belongs to
the owning project and aborts the whole build with the assertion fault on a
violation; when all entities and rules belong to the owner the assertion is
unreachable, and since both counters are zeroed before the supplied counts
are overlaid, an entity with no corresponding count entry ends with both
counters equal to zero. -/
theorem c5_thm (project : Project) (groups : List (Nat × Group))
    (rules : List (Nat × MRule)) (ec uc : List (Nat × Nat)) :
    ((∃ p ∈ groups, p.2.project_id ≠ project.id) ∨
        (∃ p ∈ rules, p.2.project_id ≠ project.id) →
      ∃ msg, attach_state project groups rules ec uc = .error (.assertionError msg)) ∧
    ((∀ p ∈ groups, p.2.project_id = project.id) →
     (∀ p ∈ rules, p.2.project_id = project.id) →
      (∀ msg, attach_state project groups rules ec uc ≠ .error (.assertionError msg)) ∧
      (∀ st, attach_state project groups rules ec uc = .ok st →
        ∀ i g, lookupBy id i st.groups = some g →
          (lookupBy id i ec = none → g.event_count = 0) ∧
          (lookupBy id i uc = none → g.user_count = 0))) := by
  constructor
  · intro hviol
    by_cases hg : ∀ p ∈ groups, p.2.project_id = project.id
    · have hrviol : ∃ p ∈ rules, p.2.project_id ≠ project.id := by
        rcases hviol with ⟨p, hp, hbad⟩ | h
        · exact absurd (hg p hp) hbad
        · exact h
      refine ⟨"Rule must belong to Project", ?_⟩
      unfold attach_state
      rw [attach_groups_ok hg, attach_rules_err hrviol]
    · push_neg at hg
      rcases hg with ⟨p, hp, hbad⟩
      refine ⟨"Group must belong to Project", ?_⟩
      unfold attach_state
      rw [attach_groups_err ⟨p, hp, hbad⟩]
  · intro hg hr
    unfold attach_state
    rw [attach_groups_ok hg, attach_rules_ok hr]
    dsimp only
    have hlook1 : ∀ i : Nat, lookupBy id i (groups.map (fun p => (p.1, seed_group project p.2))) =
        (lookupBy id i groups).map (seed_group project) :=
      fun i => lookupBy_map_values id i (seed_group project) groups
    cases hov1 : overlay_counts set_event_count
        (groups.map (fun p => (p.1, seed_group project p.2))) ec with
    | error e =>
      rcases overlay_error_is_keyError hov1 with ⟨i, rfl⟩
      exact ⟨fun msg h => by simp at h, fun st h => by simp at h⟩
    | ok gs2 =>
      dsimp only
      cases hov2 : overlay_counts set_user_count gs2 uc with
      | error e =>
        rcases overlay_error_is_keyError hov2 with ⟨i, rfl⟩
        exact ⟨fun msg h => by simp at h, fun st h => by simp at h⟩
      | ok gs3 =>
        dsimp only
        refine ⟨fun msg h => by simp at h, ?_⟩
        intro st hst i g hlk
        simp only [Except.ok.injEq] at hst
        subst hst
        dsimp only at hlk
        constructor
        · intro hec
          have hev : ∀ (g : Group) (c : Nat),
              Group.event_count (set_user_count g c) = Group.event_count g :=
            fun g c => rfl
          have h1 : (lookupBy id i gs3).map Group.event_count =
              (lookupBy id i gs2).map Group.event_count :=
            overlay_lookup_map hev hov2 i
          have h2 : lookupBy id i gs2 =
              lookupBy id i (groups.map (fun p => (p.1, seed_group project p.2))) :=
            overlay_lookup_of_not_mem hov1 hec
          rw [hlk] at h1
          rw [h2, hlook1 i] at h1
          cases hor : lookupBy id i groups with
          | none => rw [hor] at h1; simp at h1
          | some g0 =>
            rw [hor] at h1
            simpa using h1
        · intro huc
          have h2 : lookupBy id i gs3 = lookupBy id i gs2 :=
            overlay_lookup_of_not_mem hov2 huc
          have hus : ∀ (g : Group) (c : Nat),
              Group.user_count (set_event_count g c) = Group.user_count g :=
            fun g c => rfl
          have h1 : (lookupBy id i gs2).map Group.user_count =
              (lookupBy id i (groups.map (fun p =>
                (p.1, seed_group project p.2)))).map Group.user_count :=
            overlay_lookup_map hus hov1 i
          rw [← h2, hlk, hlook1 i] at h1
          cases hor : lookupBy id i groups with
          | none => rw [hor] at h1; simp at h1
          | some g0 =>
            rw [hor] at h1
            simpa using h1

theorem c5_thm_witness :
    (∃ msg, attach_state wProject [(8, wBadGroup)] [] [] [] =
      .error (.assertionError msg)) ∧
    wGroupZ.event_count = 0 ∧ wGroupZ.user_count = 0 := by
  have h2 := (c5_thm wProject [(7, wGroup)] [(10, wRule)] [] []).2
    (by decide) (by decide)
  refine ⟨(c5_thm wProject [(8, wBadGroup)] [] [] []).1
    (Or.inl ⟨(8, wBadGroup), by simp, by decide⟩), ?_, ?_⟩
  · exact (h2.2 wAttachedZ (by rfl) 7 wGroupZ (by rfl)).1 rfl
  · exact (h2.2 wAttachedZ (by rfl) 7 wGroupZ (by rfl)).2 rfl

/-- C10: `attach_state` requires every key of the two count mappings to name
a fetched entity: under the ownership precondition, a count entry whose id
has no matching entity makes the attach abort with a `KeyError` instead of
being silently ignored. -/
theorem c10_thm (project : Project) (groups : List (Nat × Group))
    (rules : List (Nat × MRule)) (ec uc : List (Nat × Nat))
    (hg : ∀ p ∈ groups, p.2.project_id = project.id)
    (hr : ∀ p ∈ rules, p.2.project_id = project.id)
    (hmiss : (∃ p ∈ ec, lookupBy id p.1 groups = none) ∨
             (∃ p ∈ uc, lookupBy id p.1 groups = none)) :
    ∃ j, attach_state project groups rules ec uc = .error (.keyError j) := by
  unfold attach_state
  rw [attach_groups_ok hg, attach_rules_ok hr]
  dsimp only
  have hlook1 : ∀ i : Nat, lookupBy id i (groups.map (fun p => (p.1, seed_group project p.2))) =
      (lookupBy id i groups).map (seed_group project) :=
    fun i => lookupBy_map_values id i (seed_group project) groups
  by_cases hec : ∃ p ∈ ec, lookupBy id p.1 groups = none
  · rcases hec with ⟨p, hp, hnone⟩
    have : lookupBy id p.1 (groups.map (fun p => (p.1, seed_group project p.2))) = none := by
      rw [hlook1, hnone]
      rfl
    rcases overlay_err_of_missing ⟨p, hp, this⟩ with ⟨j, hj⟩
    exact ⟨j, by rw [hj]⟩
  · rcases hmiss with h | ⟨p, hp, hnone⟩
    · exact absurd h hec
    · have hall : ∀ q ∈ ec,
          (lookupBy id q.1 (groups.map (fun p => (p.1, seed_group project p.2)))).isSome := by
        intro q hq
        rw [hlook1]
        cases hor : lookupBy id q.1 groups with
        | none => exact absurd ⟨q, hq, hor⟩ hec
        | some g0 => rfl
      rcases overlay_ok_of_all_present hall with ⟨gs2, hgs2⟩
      have hkeys := overlay_keys hgs2
      have hnone2 : lookupBy id p.1 gs2 = none := by
        rw [lookupBy_eq_none_iff] at hnone ⊢
        intro hc
        apply hnone
        have hmap : gs2.map (fun q => id q.1) = groups.map (fun q => id q.1) := by
          have h1 : ∀ l : List (Nat × Group), l.map (fun q => id q.1) = l.map Prod.fst := by
            intro l
            simp [id]
          rw [h1, h1, hkeys]
          have h2 : (groups.map (fun p =>
              (p.1, seed_group project p.2))).map Prod.fst = groups.map Prod.fst := by
            rw [List.map_map]
            rfl
          rw [h2]
        rw [hmap] at hc
        exact hc
      rcases overlay_err_of_missing ⟨p, hp, hnone2⟩ with ⟨j, hj⟩
      refine ⟨j, ?_⟩
      rw [hgs2]
      dsimp only
      rw [hj]

theorem c10_thm_witness :
    ∃ j, attach_state wProject [(7, wGroup)] [] [(5, 1)] [] = .error (.keyError j) :=
  c10_thm wProject [(7, wGroup)] [] [(5, 1)] [] (by decide) (by simp)
    (Or.inl ⟨(5, 1), by simp, by rfl⟩)

/-- C6 counterexample: for a target type containing the `:` separator the
round trip fails — `key.split(":", 4)` misparses the key and `int()` raises
on `"b:0"`, so decoding does not yield the encoded triple (the claim
quantifies over every target type). -/
theorem natToChars_one : natToChars 1 = ['1'] := by
  unfold natToChars
  rw [if_neg (by norm_num), Nat.digits_def' (by norm_num : (1 : Nat) < 10) Nat.one_pos]
  norm_num

theorem c6_counterexample :
    split_key_for_targeted_action (fun n => if n = 1 then some ⟨1⟩ else none)
        (unsplit_key_for_targeted_action ⟨1⟩ ("a:b").data (some 0)) ≠
      some (Adapter.mail, ⟨1⟩, ("a:b").data, 0) := by
  have hkey : unsplit_key_for_targeted_action ⟨1⟩ ("a:b").data (some 0) =
      ("targeted_mail:p:1:a:b:0").data := by
    unfold unsplit_key_for_targeted_action
    dsimp only
    rw [natToChars_one]
    decide
  rw [hkey]
  decide

/-- C6 (amended): for every project, target type containing no `:`
character, and optional target id, decoding the targeted key produced by
encoding yields the mail adapter, the project resolved from the encoded id
(the external store resolving it is the decode contract), the same target
type, and the same integer target id — with `None` encoded as `-1`. -/
theorem c6_thm (lookupProject : Nat → Option Project) (project : Project)
    (target_type : PyStr) (target_id : Option Int)
    (hcolon : ':' ∉ target_type)
    (hproj : lookupProject project.id = some project) :
    split_key_for_targeted_action lookupProject
        (unsplit_key_for_targeted_action project target_type target_id) =
      some (Adapter.mail, project, target_type,
        match target_id with
        | some t => t
        | none => -1) := by
  rw [unsplit_key_shape]
  unfold split_key_for_targeted_action
  rw [pySplitMax_unsplit project target_type _ hcolon]
  dsimp only
  rw [parseNat_natToChars, parseInt_intToChars]
  dsimp only
  rw [hproj]

theorem c6_thm_witness :
    ':' ∉ ("Member").data ∧
    split_key_for_targeted_action (fun n => if n = 7 then some ⟨7⟩ else none)
        (unsplit_key_for_targeted_action ⟨7⟩ ("Member").data (some 5)) =
      some (Adapter.mail, ⟨7⟩, ("Member").data, 5) :=
  ⟨by decide,
   c6_thm (fun n => if n = 7 then some ⟨7⟩ else none) ⟨7⟩ ("Member").data (some 5)
     (by decide) (by rfl)⟩

/-- C9 counterexample: a record whose rewritten rule list has two entries
(the same rule twice) does not occur once per rule in two leaf lists — it
occurs twice in the single leaf list of that rule. -/
theorem c9_counterexample :
    wRecDupR.value.rules.length = 2 ∧
    (leafOf (run_pipeline wAttached [wRecDup]) wRuleA wGroupA).count wRecDupR = 2 :=
  ⟨rfl, by rfl⟩

/-- C9 (amended): provided the surviving records are pairwise distinct and
each surviving record's rewritten rule list names no rule id twice, every
leaf list is an order-preserving selection of the rewritten input batch
(records keep their input order), and a surviving record occurs exactly
once in the leaf of each of its resolved rules under its own group, and in
no other leaf. -/
theorem c9_thm (st : AttachedState) (rs : List (Record Nat))
    (hnd : (alive st rs).Nodup)
    (hrules : ∀ r ∈ alive st rs, (r.value.rules.map MRule.id).Nodup) :
    (∀ pa ∈ run_pipeline st rs, ∀ q ∈ pa.2,
      q.2.Sublist ((rs.filterMap (rewrite_record st)).filter check_group_state)) ∧
    (∀ r ∈ alive st rs, ∀ g, r.value.event.group = some g →
      (∀ rl ∈ r.value.rules, (leafOf (run_pipeline st rs) rl g).count r = 1) ∧
      (∀ pa ∈ run_pipeline st rs, ∀ q ∈ pa.2, r ∈ q.2 →
        q.1.id = g.id ∧ ∃ rl0 ∈ r.value.rules, rl0.id = pa.1.id)) := by
  have halive : alive st rs = (rs.filterMap (rewrite_record st)).filter check_group_state := by
    unfold alive
    rw [survivors_eq_filterMap]
  constructor
  · intro pa hpa q hq
    have hleaf : q.2 = leafOf (run_pipeline st rs) pa.1 q.1 :=
      (entry_leafOf (digestKeysOK_run_pipeline st rs) hpa hq).symm
    rw [hleaf, run_pipeline_leaf_filter st rs pa.1 q.1 hrules, ← halive]
    exact List.filter_sublist _
  · intro r hr g hg
    have hcount1 : (alive st rs).count r = 1 := List.count_eq_one_of_mem hnd hr
    constructor
    · intro rl hrl
      rw [run_pipeline_leaf_filter st rs rl g hrules]
      have hpred : leafPred rl g r = true := by
        unfold leafPred
        rw [hg]
        simp only [beq_self_eq_true, Bool.true_and, List.any_eq_true]
        exact ⟨rl, hrl, by simp⟩
      have hmem : r ∈ (alive st rs).filter (leafPred rl g) :=
        List.mem_filter.mpr ⟨hr, hpred⟩
      have hle : ((alive st rs).filter (leafPred rl g)).count r ≤ 1 := by
        rw [← hcount1]
        exact (List.filter_sublist _).count_le r
      have hge : 1 ≤ ((alive st rs).filter (leafPred rl g)).count r := by
        have := List.count_pos_iff.mpr hmem
        omega
      omega
    · intro pa hpa q hq hrq
      have hleaf : q.2 = leafOf (run_pipeline st rs) pa.1 q.1 :=
        (entry_leafOf (digestKeysOK_run_pipeline st rs) hpa hq).symm
      rw [hleaf, run_pipeline_leaf_filter st rs pa.1 q.1 hrules] at hrq
      have hpred := (List.mem_filter.mp hrq).2
      unfold leafPred at hpred
      rw [hg] at hpred
      simp only [Bool.and_eq_true, beq_iff_eq, List.any_eq_true] at hpred
      rcases hpred with ⟨hgid, x, hx, hxid⟩
      exact ⟨hgid.symm, ⟨x, hx, hxid⟩⟩

theorem c9_thm_witness :
    ([wRecordR] : List (Record MRule)).Sublist
      (([wRecord].filterMap (rewrite_record wAttached)).filter check_group_state) ∧
    (leafOf (run_pipeline wAttached [wRecord]) wRuleA wGroupA).count wRecordR = 1 := by
  have H := c9_thm wAttached [wRecord] (by decide) (by decide)
  exact ⟨H.1 (wRuleA, [(wGroupA, [wRecordR])]) (by decide) (wGroupA, [wRecordR]) (by decide),
         (H.2 wRecordR (by decide) wGroupA (by rfl)).1 wRuleA (by decide)⟩

end Sentry
